import Mathlib

/-!
# Verification of the supply-solver core

Shallow embedding of the Rust sources of `supply-solver`:

* `src/hypergraph.rs` — a generic weighted directed hypergraph
  (`IndexMap` of nodes with `HashSet` adjacency, `IndexSet` of edges
  deduplicated by their (sources, destinations) shape);
* `src/tree.rs` — a rose tree `NTree`;
* `src/main.rs` — the rate-based resolver (`Recipe::rate`,
  `least_waste_heuristic`, `dep_tree`) over exact rationals.

Modelling conventions, chosen once and used consistently:

* `Rational64` is embedded as `ℚ`.  The explicit integer casts that appear
  in the source (`as i64`, `as u64`, and the `i64` multiplication in
  `dep_tree`) are modelled exactly as 64-bit conversions
  (`Int.bmod · (2 ^ 64)` for the two's-complement reinterpretation and
  `% 2 ^ 64` for `i64 → u64`); overflow inside the `Ratio` representation
  itself is out of scope.
* Rust `Result<_, &str>` values are embedded as the `err` branch of
  `RustRes`; a panic (`unwrap` on `None`/`Err`, division by a zero
  rational) is embedded as the distinguished outcome `RustRes.panic`.
  A panic aborts the process, so no state is carried along with it.
* `std::collections::HashSet` is embedded as a `Finset ℕ`: the contents
  are a set, and any place the source iterates over the set, the
  iteration order is a parameter `ρ` ranging over the permutations of a
  canonical enumeration of the set (Rust's `HashSet` iteration order is
  unspecified and randomized per map instance).
* `IndexMap` / `IndexSet` are embedded as insertion-ordered lists with
  the library's documented semantics: inserting an existing key keeps its
  index and replaces the value (`IndexMap::insert_full`); inserting an
  element equal to a stored one keeps the stored element and returns its
  index (`IndexSet::insert_full`); `Hyperedge` equality is on the
  (src, dst) pair only, ignoring the weight, as in `impl PartialEq`.
-/

namespace SupplySolver

/-- Outcome of running a piece of Rust code: a returned value, a returned
`Result::Err`, or a panic (which aborts the process, carrying nothing). -/
inductive RustRes (ε α : Type) : Type where
  | ok : α → RustRes ε α
  | err : ε → RustRes ε α
  | panic : RustRes ε α
deriving DecidableEq

/-- Whether an outcome is a returned `Result::Err`. -/
def RustRes.isErr {ε α : Type} : RustRes ε α → Bool
  | RustRes.err _ => true
  | _ => false

/-- Whether an outcome is a normally returned value. -/
def RustRes.isOk {ε α : Type} : RustRes ε α → Bool
  | RustRes.ok _ => true
  | _ => false

/-- `u64 → i64` cast: two's-complement reinterpretation of `n < 2^64`,
i.e. the balanced residue of `n` modulo `2^64`. -/
def u64ToI64 (n : ℕ) : ℤ := Int.bmod n (2 ^ 64)

/-- `i64 → u64` cast: two's-complement reinterpretation of an `i64` value. -/
def i64ToU64 (x : ℤ) : ℕ := (x % (2 ^ 64 : ℤ)).toNat

/-- Wrapping `i64` multiplication (release-profile overflow semantics). -/
def i64Mul (a b : ℤ) : ℤ := Int.bmod (a * b) (2 ^ 64)

/-- `Ratio::trunc`: rounding toward zero, as an integer. -/
def rtrunc (q : ℚ) : ℤ := if 0 ≤ q then ⌊q⌋ else ⌈q⌉

/-- `Ratio::fract`: `self - self.trunc()`. -/
def rfract (q : ℚ) : ℚ := q - rtrunc q

/-- `Ord::cmp` on `Ratio` values (numeric order). -/
def qcmp (a b : ℚ) : Ordering :=
  if a < b then Ordering.lt else if b < a then Ordering.gt else Ordering.eq

/-- `Iterator::min_by`: fold keeping the current minimum, replacing it only
when the current minimum compares `Greater` to the new element — so among
equally minimal elements the first one is kept.  Mirrors
`reduce(|acc, y| cmp::min_by(acc, y, compare))`. -/
def minBy {α : Type} (f : α → α → Ordering) : List α → Option α
  | [] => none
  | x :: xs =>
      some (xs.foldl (fun acc y => if f acc y = Ordering.gt then y else acc) x)

/-- All-or-nothing map over a list (the `Option` effect of collecting
fallible lookups): `some` of the image when every element maps to `some`,
`none` otherwise. -/
def optMap {α β : Type} (f : α → Option β) : List α → Option (List β)
  | [] => some []
  | a :: l =>
      match f a, optMap f l with
      | some b, some bs => some (b :: bs)
      | _, _ => none

/-! ## The hypergraph store (`src/hypergraph.rs`) -/

/-- `struct Hypernode`: the two adjacency sets of edge indices.  A
`std::collections::HashSet` is embedded as the list of its elements
(duplicate-free by construction, order semantically irrelevant: every
place the source iterates the set, an arbitrary permutation is applied
first, and set-level claims are stated through `List.toFinset`). -/
structure Hypernode : Type where
  neighbors : List ℕ
  neighbor_of : List ℕ
deriving DecidableEq

/-- `Hypernode::new()`. -/
def Hypernode.new : Hypernode := ⟨[], []⟩

/-- `struct Hyperedge<E>`: source and destination node-index sets
(`BTreeSet<NodeIndex>`) plus the weight. -/
structure Hyperedge (E : Type) : Type where
  src : Finset ℕ
  dst : Finset ℕ
  weight : E
deriving DecidableEq

/-- `struct Hypergraph<N, E>`: `nodes : IndexMap<N, Hypernode>` as an
insertion-ordered association list (keys pairwise distinct), and
`edges : IndexSet<Hyperedge<E>>` as an insertion-ordered list whose
elements are pairwise distinct under the (src, dst) equality of
`impl PartialEq for Hyperedge`. -/
structure Hypergraph (N E : Type) : Type where
  nodes : List (N × Hypernode)
  edges : List (Hyperedge E)
deriving DecidableEq

variable {N E : Type} [DecidableEq N] [DecidableEq E]

/-- `Hypergraph::new()`. -/
def Hypergraph.new : Hypergraph N E := ⟨[], []⟩

/-- `IndexMap::get_index_of`: position of a key in insertion order. -/
def Hypergraph.nodeIndex (g : Hypergraph N E) (k : N) : Option ℕ :=
  g.nodes.findIdx? (fun p => decide (p.1 = k))

/-- `IndexMap::get`: the `Hypernode` stored for a key. -/
def Hypergraph.getNode? (g : Hypergraph N E) (k : N) : Option Hypernode :=
  (g.nodes.find? (fun p => decide (p.1 = k))).map (fun p => p.2)

/-- `Hypergraph::insert_node`, i.e. `nodes.insert_full(node, Hypernode::new())`:
a fresh key is appended with the next index; an existing key keeps its
index and order but has its value replaced by a fresh empty `Hypernode`. -/
def Hypergraph.insert_node (g : Hypergraph N E) (k : N) :
    Hypergraph N E × ℕ :=
  match g.nodes.findIdx? (fun p => decide (p.1 = k)) with
  | some i => ({ g with nodes := g.nodes.set i (k, Hypernode.new) }, i)
  | none => ({ g with nodes := g.nodes ++ [(k, Hypernode.new)] }, g.nodes.length)

/-- Resolution of a list of keys to node indices; `none` when some key is
absent (in the source this is `self.nodes.get_index_of(node).unwrap()`,
a panic). -/
def Hypergraph.mapIdx? (g : Hypergraph N E) (ks : List N) : Option (List ℕ) :=
  optMap g.nodeIndex ks

/-- One step of the `for src in sources` loop of `insert_edge`:
`self.nodes.get_mut(src).unwrap().neighbors.insert(index)`. -/
def Hypergraph.addOut (g : Hypergraph N E) (k : N) (i : ℕ) : Hypergraph N E :=
  { g with nodes := g.nodes.map (fun p =>
      if p.1 = k then (p.1, { p.2 with neighbors := p.2.neighbors.insert i })
      else p) }

/-- One step of the `for dst in destinations` loop of `insert_edge`. -/
def Hypergraph.addIn (g : Hypergraph N E) (k : N) (i : ℕ) : Hypergraph N E :=
  { g with nodes := g.nodes.map (fun p =>
      if p.1 = k then (p.1, { p.2 with neighbor_of := p.2.neighbor_of.insert i })
      else p) }

/-- `Hypergraph::insert_edge`.  The mapping closure panics (`unwrap`) if any
key is absent — this happens while the `Hyperedge` is being built, before
any mutation.  `edges.insert_full` keeps a stored edge of equal
(src, dst) shape — weight ignored — and returns its index; otherwise the
new edge is appended.  Then the edge index is inserted into `neighbors`
of every listed source and `neighbor_of` of every listed destination. -/
def Hypergraph.insert_edge (g : Hypergraph N E) (ss ds : List N) (w : E) :
    RustRes String (Hypergraph N E × ℕ) :=
  match g.mapIdx? ss, g.mapIdx? ds with
  | some si, some di =>
      let S : Finset ℕ := si.toFinset
      let D : Finset ℕ := di.toFinset
      let p : List (Hyperedge E) × ℕ :=
        match g.edges.findIdx? (fun e => decide (e.src = S ∧ e.dst = D)) with
        | some i => (g.edges, i)
        | none => (g.edges ++ [⟨S, D, w⟩], g.edges.length)
      let g1 : Hypergraph N E := { g with edges := p.1 }
      let g2 : Hypergraph N E := ss.foldl (fun h k => h.addOut k p.2) g1
      let g3 : Hypergraph N E := ds.foldl (fun h k => h.addIn k p.2) g2
      RustRes.ok (g3, p.2)
  | _, _ => RustRes.panic

/-- `Hypergraph::order`. -/
def Hypergraph.order (g : Hypergraph N E) : ℕ := g.nodes.length

/-- `Hypergraph::size`. -/
def Hypergraph.size (g : Hypergraph N E) : ℕ := g.edges.length

/-- `Hypergraph::neighbors`: the outgoing edge indices of a key (a `Vec`
collected from the hash set, here in storage order), or the string error
of the source. -/
def Hypergraph.neighbors (g : Hypergraph N E) (k : N) :
    RustRes String (List ℕ) :=
  match g.getNode? k with
  | some nd => RustRes.ok nd.neighbors
  | none => RustRes.err "Node does not exist"

/-- `Hypergraph::neighbor_of`: the incoming edge indices of a key. -/
def Hypergraph.neighbor_of (g : Hypergraph N E) (k : N) :
    RustRes String (List ℕ) :=
  match g.getNode? k with
  | some nd => RustRes.ok nd.neighbor_of
  | none => RustRes.err "Node does not exist"

/-- `Hypergraph::get_node`: reverse lookup of the key at an index. -/
def Hypergraph.get_node (g : Hypergraph N E) (i : ℕ) : RustRes String N :=
  match g.nodes[i]? with
  | some p => RustRes.ok p.1
  | none => RustRes.err "Node does not exist"

/-- `Hypergraph::get_weight`: the weight of the edge at an index. -/
def Hypergraph.get_weight (g : Hypergraph N E) (i : ℕ) : RustRes String E :=
  match g.edges[i]? with
  | some e => RustRes.ok e.weight
  | none => RustRes.err "Edge does not exist"

/-! ## Build sequences

The loading collaborator builds a graph by a sequence of `insert_node` and
`insert_edge` calls (`main.rs`, `fn main`).  `build` performs the calls
as written; `buildFresh` additionally rejects a sequence that calls
`insert_node` on an already-present key (the destructive re-insertion of
§9 of the spec).  Both return `none` when a call panics. -/

/-- A single mutation of the graph. -/
inductive Op (N E : Type) : Type where
  | node : N → Op N E
  | edge : List N → List N → E → Op N E

/-- Apply one operation; `none` on panic. -/
def applyOp (g : Hypergraph N E) : Op N E → Option (Hypergraph N E)
  | Op.node k => some (g.insert_node k).1
  | Op.edge ss ds w =>
      match g.insert_edge ss ds w with
      | RustRes.ok p => some p.1
      | _ => none

/-- Apply one operation, additionally rejecting re-insertion of an
existing node key. -/
def applyOpFresh (g : Hypergraph N E) : Op N E → Option (Hypergraph N E)
  | Op.node k =>
      match g.nodeIndex k with
      | some _ => none
      | none => some (g.insert_node k).1
  | Op.edge ss ds w =>
      match g.insert_edge ss ds w with
      | RustRes.ok p => some p.1
      | _ => none

/-- Run a build sequence from a given graph. -/
def buildFrom (g : Hypergraph N E) : List (Op N E) → Option (Hypergraph N E)
  | [] => some g
  | op :: ops =>
      match applyOp g op with
      | some g' => buildFrom g' ops
      | none => none

/-- Run a build sequence from the empty graph. -/
def build (ops : List (Op N E)) : Option (Hypergraph N E) :=
  buildFrom Hypergraph.new ops

/-- Run a build sequence from a given graph, requiring every
`insert_node` key to be fresh. -/
def buildFreshFrom (g : Hypergraph N E) : List (Op N E) → Option (Hypergraph N E)
  | [] => some g
  | op :: ops =>
      match applyOpFresh g op with
      | some g' => buildFreshFrom g' ops
      | none => none

/-- Run a build sequence from the empty graph, requiring every
`insert_node` key to be fresh. -/
def buildFresh (ops : List (Op N E)) : Option (Hypergraph N E) :=
  buildFreshFrom Hypergraph.new ops

/-- The set of edge indices whose stored `src` set contains node index `i`
(the specification-side description of `neighbors`). -/
def edgesWithSource (g : Hypergraph N E) (i : ℕ) : Finset ℕ :=
  (g.edges.enum.filterMap
    (fun p => if i ∈ p.2.src then some p.1 else none)).toFinset

/-- The set of edge indices whose stored `dst` set contains node index `i`
(the specification-side description of `neighbor_of`). -/
def edgesWithDest (g : Hypergraph N E) (i : ℕ) : Finset ℕ :=
  (g.edges.enum.filterMap
    (fun p => if i ∈ p.2.dst then some p.1 else none)).toFinset

/-- The combined per-node adjacency update performed by the two loops of
`insert_edge` when inserting edge index `L` with source keys `ss` and
destination keys `ds`. -/
def adjUpd (ss ds : List N) (L : ℕ) : N × Hypernode → N × Hypernode :=
  fun p =>
    (p.1,
     { neighbors := if p.1 ∈ ss then p.2.neighbors.insert L else p.2.neighbors,
       neighbor_of :=
         if p.1 ∈ ds then p.2.neighbor_of.insert L else p.2.neighbor_of })

/-! ## The resolver (`src/main.rs`, `src/tree.rs`) -/

/-- `struct Reagent`: a widget name with a `u64` quantity. -/
structure Reagent : Type where
  widget : String
  quantity : ℕ
deriving DecidableEq, Repr

/-- `struct Recipe`: name, builder, exact rational duration, product and
reagent quantity lists. -/
structure Recipe : Type where
  name : String
  builder : String
  duration : ℚ
  products : List Reagent
  reagents : List Reagent
deriving DecidableEq, Repr

/-- `Recipe::rate`: units per second of a given product widget,
`Rational64::from_integer(quantity as i64) / duration` for the first
product entry naming the widget.  `none` is a panic: the `unwrap` of a
missing product entry, or the division by a zero `duration`. -/
def Recipe.rate (r : Recipe) (w : String) : Option ℚ :=
  match r.products.find? (fun p => decide (p.widget = w)) with
  | none => none
  | some rg =>
      if r.duration = 0 then none
      else some ((u64ToI64 rg.quantity : ℚ) / r.duration)

/-- One candidate of the heuristic: the recipe together with its produced
rate for the widget and its waste `(rate / recipe.rate(widget)).fract()`.
`none` is a panic: `Recipe::rate` panicked or the candidate rate is zero
(division by a zero rational).  In the source the wastes are computed
lazily inside the `min_by` comparator; every candidate's waste is
computed whenever two or more candidates exist, and for a single
candidate the same division is performed by the `ceil` line below, so
precomputing all wastes yields the same overall outcome. -/
def candOf (req : ℚ) (w : String) (r : Recipe) : Option (Recipe × ℚ × ℚ) :=
  match r.rate w with
  | none => none
  | some rr => if rr = 0 then none else some (r, rr, rfract (req / rr))

/-- `least_waste_heuristic`.  The `HashSet` iteration order of the
`neighbor_of` adjacency set is modelled as `ρ` applied to the stored
element list, for an arbitrary permutation `ρ` (the source iterates a
`std::collections::HashSet`, whose order is unspecified).  The result is `panic` when `neighbor_of(widget).unwrap()`
fails, when some `get_weight(e).unwrap()` fails, or when some waste
computation panics; `ok none` when there is no candidate (`min_by` of an
empty iterator yields `None`); otherwise the minimal-waste candidate
(first in iteration order among equal minima) paired with
`(rate / r.rate(widget)).ceil()`'s numerator cast `as u64`. -/
def leastWasteHeuristic (ρ : List ℕ → List ℕ) (g : Hypergraph String Recipe)
    (w : String) (req : ℚ) : RustRes String (Option (Recipe × ℕ)) :=
  match g.getNode? w with
  | none => RustRes.panic
  | some nd =>
      match optMap (fun i => (g.edges[i]?).map (fun e => e.weight))
          (ρ nd.neighbor_of) with
      | none => RustRes.panic
      | some recipes =>
          match optMap (candOf req w) recipes with
          | none => RustRes.panic
          | some cands =>
              match minBy (fun a b => qcmp a.2.2 b.2.2) cands with
              | none => RustRes.ok none
              | some best =>
                  RustRes.ok (some (best.1, i64ToU64 ⌈req / best.2.1⌉))

/-- `struct NTree<U>` (`src/tree.rs`): a rose tree owning an ordered list
of children. -/
inductive NTree (α : Type) : Type where
  | mk : α → List (NTree α) → NTree α

/-- The held data (`Deref` in the source). -/
def NTree.data {α : Type} : NTree α → α
  | NTree.mk a _ => a

/-- `NTree::children`. -/
def NTree.children {α : Type} : NTree α → List (NTree α)
  | NTree.mk _ cs => cs

mutual

/-- Number of nodes of a rose tree. -/
def NTree.size {α : Type} : NTree α → ℕ
  | NTree.mk _ cs => 1 + NTree.sizeList cs

/-- Total number of nodes of a list of rose trees. -/
def NTree.sizeList {α : Type} : List (NTree α) → ℕ
  | [] => 0
  | t :: ts => NTree.size t + NTree.sizeList ts

end

/-- Result of running `dep_tree` with a bounded recursion depth: a tree, a
panic, or exhaustion of the depth bound.  The recursion in the source is
unbounded, so a `fuel` outcome means the bound was hit, never that the
source returns. -/
inductive DepRes : Type where
  | tree : NTree (Recipe × ℕ) → DepRes
  | panic : DepRes
  | fuel : DepRes

/-- Result of computing the list of children of a node. -/
inductive ForestRes : Type where
  | trees : List (NTree (Recipe × ℕ)) → ForestRes
  | panic : ForestRes
  | fuel : ForestRes

/-- Combine the recursive results for the children of a node:
left to right, first abnormal result wins (the source computes and
inserts children sequentially and a panic aborts the process). -/
def collectChildren : List DepRes → ForestRes
  | [] => ForestRes.trees []
  | DepRes.tree t :: rest =>
      match collectChildren rest with
      | ForestRes.trees ts => ForestRes.trees (t :: ts)
      | r => r
  | DepRes.panic :: _ => ForestRes.panic
  | DepRes.fuel :: _ => ForestRes.fuel

/-- `dep_tree`, with fuel bounding the recursion depth.  One node is built
from the selected `(recipe, multiplier)` pair — `unwrap` panics when the
heuristic returns `None` or itself panicked — and one child is resolved
per reagent of the selected recipe, in declared order, at requested rate
`from_integer(quantity as i64 * multiplier as i64) / duration` (the
product is `i64` arithmetic; the division panics when `duration` is zero,
which cannot happen for a selected recipe). -/
def depTreeF (ρ : List ℕ → List ℕ) (g : Hypergraph String Recipe) :
    ℕ → String → ℚ → DepRes
  | 0, _, _ => DepRes.fuel
  | fuel + 1, w, req =>
      match leastWasteHeuristic ρ g w req with
      | RustRes.ok (some (r, m)) =>
          match collectChildren (r.reagents.map (fun rg =>
              if r.duration = 0 then DepRes.panic
              else depTreeF ρ g fuel rg.widget
                ((i64Mul (u64ToI64 rg.quantity) (u64ToI64 m) : ℚ) / r.duration))) with
          | ForestRes.trees ts => DepRes.tree (NTree.mk (r, m) ts)
          | ForestRes.panic => DepRes.panic
          | ForestRes.fuel => DepRes.fuel
      | _ => DepRes.panic

/-- Sum of the selection counts of a children list, honouring the
left-to-right abort: counts after the first abnormal child never run. -/
def countChildren : List (DepRes × ℕ) → ℕ
  | [] => 0
  | (DepRes.tree _, c) :: rest => c + countChildren rest
  | (_, c) :: _ => c

/-- Number of invocations of `least_waste_heuristic` performed by
`dep_tree` (one per call, plus those of the children actually run). -/
def selCountF (ρ : List ℕ → List ℕ) (g : Hypergraph String Recipe) :
    ℕ → String → ℚ → ℕ
  | 0, _, _ => 0
  | fuel + 1, w, req =>
      match leastWasteHeuristic ρ g w req with
      | RustRes.ok (some (r, m)) =>
          1 + countChildren (r.reagents.map (fun rg =>
              if r.duration = 0 then (DepRes.panic, 0)
              else
                (depTreeF ρ g fuel rg.widget
                  ((i64Mul (u64ToI64 rg.quantity) (u64ToI64 m) : ℚ) / r.duration),
                 selCountF ρ g fuel rg.widget
                  ((i64Mul (u64ToI64 rg.quantity) (u64ToI64 m) : ℚ) / r.duration))))
      | _ => 1

/-- Edge indices reachable from a key through the producer relation: the
incoming edges of the key plus, recursively, the ones reachable from the
reagents of their payloads (depth bounded by fuel; at the concrete graphs
below the bound is ample). -/
def reachableEdges (g : Hypergraph String Recipe) : ℕ → String → Finset ℕ
  | 0, _ => ∅
  | fuel + 1, w =>
      match g.getNode? w with
      | none => ∅
      | some nd =>
          nd.neighbor_of.toFinset ∪
            (nd.neighbor_of.map (fun i =>
              match g.edges[i]? with
              | none => ∅
              | some e =>
                  (e.weight.reagents.map
                    (fun rg => reachableEdges g fuel rg.widget)).foldr (· ∪ ·) ∅)).foldr (· ∪ ·) ∅

/-! ## Concrete instances used in witnesses and counterexamples

Each of these graphs is the result of a concrete sequence of
`insert_node` / `insert_edge` calls starting from the empty graph; a
`build` equation proved below certifies this for each. -/

/-- Nodes `a`, `b` and one edge `{a} → {b}` of weight 5. -/
def gW : Hypergraph String ℕ :=
  ⟨[("a", ⟨[0], []⟩), ("b", ⟨[], [0]⟩)], [⟨{0}, {1}, 5⟩]⟩

/-- Nodes `a`, `b`, no edges. -/
def gW0 : Hypergraph String ℕ :=
  ⟨[("a", ⟨[], []⟩), ("b", ⟨[], []⟩)], []⟩

/-- `gW` after re-inserting node `a`: the adjacency of `a` has been reset,
but edge 0 still lists `a`'s index 0 in its `src` set. -/
def gReset : Hypergraph String ℕ :=
  ⟨[("a", ⟨[], []⟩), ("b", ⟨[], [0]⟩)], [⟨{0}, {1}, 5⟩]⟩

/-- Recipe producing one `T` per second from one `A`. -/
def cr1 : Recipe := ⟨"cr1", "b", 1, [⟨"T", 1⟩], [⟨"A", 1⟩]⟩

/-- Recipe producing one `T` per second from one `B` (same rate as `cr1`,
hence equal waste for every requested rate). -/
def cr2 : Recipe := ⟨"cr2", "b", 1, [⟨"T", 1⟩], [⟨"B", 1⟩]⟩

/-- Two equal-waste producers of `T`: edge 0 carries `cr1`, edge 1 carries
`cr2`.  The hash-set adjacency list of `T` stores `[1, 0]`. -/
def gTie : Hypergraph String Recipe :=
  ⟨[("T", ⟨[], [1, 0]⟩), ("A", ⟨[0], []⟩), ("B", ⟨[1], []⟩)],
   [⟨{1}, {0}, cr1⟩, ⟨{2}, {0}, cr2⟩]⟩

/-- Recipe with a negative duration (a negative decimal in the recipe
bank), giving candidate rate `-1/2`. -/
def cneg : Recipe := ⟨"cneg", "b", -2, [⟨"T", 1⟩], []⟩

/-- One producer of `T` with negative rate. -/
def gNeg : Hypergraph String Recipe :=
  ⟨[("T", ⟨[], [0]⟩)], [⟨∅, {0}, cneg⟩]⟩

/-- Recipe consuming `2^63` units of `A` per instance. -/
def cbig1 : Recipe := ⟨"cbig1", "b", 1, [⟨"T", 1⟩], [⟨"A", 2 ^ 63⟩]⟩

/-- Producer of `A` at rate 3. -/
def cbig2 : Recipe := ⟨"cbig2", "b", 1, [⟨"A", 3⟩], []⟩

/-- Producer chain whose reagent quantity `2^63` overflows the `i64` cast
in `dep_tree`'s child-rate computation. -/
def gBig : Hypergraph String Recipe :=
  ⟨[("T", ⟨[], [0]⟩), ("A", ⟨[0], [1]⟩)],
   [⟨{1}, {0}, cbig1⟩, ⟨∅, {1}, cbig2⟩]⟩

/-- A single node `b` with no edges at all. -/
def gOne : Hypergraph String Recipe := ⟨[("b", ⟨[], []⟩)], []⟩

/-- Diamond recipes: `T` needs `A` and `B`, which each need `C`. -/
def dT : Recipe := ⟨"dT", "b", 1, [⟨"T", 1⟩], [⟨"A", 1⟩, ⟨"B", 1⟩]⟩

/-- Producer of `A` from `C`. -/
def dA : Recipe := ⟨"dA", "b", 1, [⟨"A", 1⟩], [⟨"C", 1⟩]⟩

/-- Producer of `B` from `C`. -/
def dB : Recipe := ⟨"dB", "b", 1, [⟨"B", 1⟩], [⟨"C", 1⟩]⟩

/-- Producer of `C` from nothing. -/
def dC : Recipe := ⟨"dC", "b", 1, [⟨"C", 1⟩], []⟩

/-- The diamond graph: 4 edges, all reachable from `T`, but `C`'s
producer is resolved twice (once under `A`, once under `B`). -/
def gDia : Hypergraph String Recipe :=
  ⟨[("T", ⟨[], [0]⟩), ("A", ⟨[0], [1]⟩), ("B", ⟨[0], [2]⟩), ("C", ⟨[2, 1], [3]⟩)],
   [⟨{1, 2}, {0}, dT⟩, ⟨{3}, {1}, dA⟩, ⟨{3}, {2}, dB⟩, ⟨∅, {3}, dC⟩]⟩

/-- A rank function witnessing acyclicity of the diamond's producer
relation. -/
def rkDia : String → ℕ :=
  fun k => if k = "C" then 0 else if k = "T" then 2 else 1

/-- Fast producer of `T`: two units per second. -/
def cfast : Recipe := ⟨"cfast", "b", 1, [⟨"T", 2⟩], [⟨"A", 1⟩]⟩

/-- Slow producer of `T`: one unit per second. -/
def cslow : Recipe := ⟨"cslow", "b", 1, [⟨"T", 1⟩], [⟨"B", 1⟩]⟩

/-- Two producers of `T` with different wastes at requested rate `3/2`:
`cfast` wastes `fract(3/4) = 3/4`, `cslow` wastes `fract(3/2) = 1/2`, so
the heuristic must pick `cslow` (the least-waste law of §8). -/
def gSel : Hypergraph String Recipe :=
  ⟨[("T", ⟨[], [1, 0]⟩), ("A", ⟨[0], []⟩), ("B", ⟨[1], []⟩)],
   [⟨{1}, {0}, cfast⟩, ⟨{2}, {0}, cslow⟩]⟩

/-- Producer of `T` needing three `A` per instance, over two seconds. -/
def cch1 : Recipe := ⟨"cch1", "b", 2, [⟨"T", 1⟩], [⟨"A", 3⟩]⟩

/-- Producer of `A` from nothing. -/
def cch2 : Recipe := ⟨"cch2", "b", 1, [⟨"A", 1⟩], []⟩

/-- A two-level producer chain with small quantities (no overflow). -/
def gChain : Hypergraph String Recipe :=
  ⟨[("T", ⟨[], [0]⟩), ("A", ⟨[0], [1]⟩)], [⟨{1}, {0}, cch1⟩, ⟨∅, {1}, cch2⟩]⟩

/-- The dependency tree the resolver produces on the diamond at rate 1:
five nodes, with `dC`'s producer resolved twice. -/
def tDia : NTree (Recipe × ℕ) :=
  NTree.mk (dT, 1) [NTree.mk (dA, 1) [NTree.mk (dC, 1) []],
    NTree.mk (dB, 1) [NTree.mk (dC, 1) []]]

/-! ## Helper lemmas -/

theorem optMap_mem_of {α β : Type} {f : α → Option β} :
    ∀ {l : List α} {l' : List β}, optMap f l = some l' →
      ∀ b ∈ l', ∃ a ∈ l, f a = some b := by
  intro l
  induction l with
  | nil => intro l' h b hb; simp [optMap] at h; subst h; simp at hb
  | cons a t ih =>
      intro l' h b hb
      simp only [optMap] at h
      cases hfa : f a with
      | none => rw [hfa] at h; simp at h
      | some b0 =>
          rw [hfa] at h
          cases ht : optMap f t with
          | none => rw [ht] at h; simp at h
          | some bs =>
              rw [ht] at h
              simp only [Option.some.injEq] at h
              subst h
              rcases List.mem_cons.mp hb with hb | hb
              · exact ⟨a, List.mem_cons_self a t, hb ▸ hfa⟩
              · obtain ⟨a', ha', hfa'⟩ := ih ht b hb
                exact ⟨a', List.mem_cons_of_mem a ha', hfa'⟩

theorem optMap_forall {α β : Type} {f : α → Option β} :
    ∀ {l : List α} {l' : List β}, optMap f l = some l' →
      ∀ a ∈ l, ∃ b ∈ l', f a = some b := by
  intro l
  induction l with
  | nil => intro l' h a ha; simp at ha
  | cons a0 t ih =>
      intro l' h a ha
      simp only [optMap] at h
      cases hfa : f a0 with
      | none => rw [hfa] at h; simp at h
      | some b0 =>
          rw [hfa] at h
          cases ht : optMap f t with
          | none => rw [ht] at h; simp at h
          | some bs =>
              rw [ht] at h
              simp only [Option.some.injEq] at h
              subst h
              rcases List.mem_cons.mp ha with ha | ha
              · exact ⟨b0, List.mem_cons_self b0 bs, ha ▸ hfa⟩
              · obtain ⟨b, hb, hfb⟩ := ih ht a ha
                exact ⟨b, List.mem_cons_of_mem b0 hb, hfb⟩

theorem qcmp_eq_gt_iff {a b : ℚ} : qcmp a b = Ordering.gt ↔ b < a := by
  unfold qcmp
  by_cases h2 : b < a
  · have h1 : ¬a < b := not_lt.mpr (le_of_lt h2)
    simp [h1, h2]
  · by_cases h1 : a < b <;> simp [h1, h2]

/-- The fold inside `minBy` returns either its initial accumulator or a
list element. -/
theorem foldl_minBy_mem {α : Type} (f : α → α → Ordering) :
    ∀ (l : List α) (a : α),
      l.foldl (fun acc y => if f acc y = Ordering.gt then y else acc) a = a ∨
      l.foldl (fun acc y => if f acc y = Ordering.gt then y else acc) a ∈ l := by
  intro l
  induction l with
  | nil => intro a; left; rfl
  | cons x t ih =>
      intro a
      simp only [List.foldl_cons]
      rcases ih (if f a x = Ordering.gt then x else a) with h | h
      · rw [h]
        by_cases hfx : f a x = Ordering.gt
        · right; simp [hfx]
        · left; simp [hfx]
      · right; exact List.mem_cons_of_mem x h

theorem minBy_mem {α : Type} (f : α → α → Ordering) {l : List α} {x : α}
    (h : minBy f l = some x) : x ∈ l := by
  cases l with
  | nil => simp [minBy] at h
  | cons a t =>
      simp only [minBy, Option.some.injEq] at h
      rcases foldl_minBy_mem f t a with h' | h'
      · rw [h] at h'; rw [h']; exact List.mem_cons_self a t
      · rw [h] at h'; exact List.mem_cons_of_mem a h'

/-- The fold inside `minBy`, with a `qcmp`-on-projection comparator,
returns an element whose projection is minimal among the accumulator and
the list. -/
theorem foldl_minBy_le {α : Type} (w : α → ℚ) :
    ∀ (l : List α) (a : α),
      w (l.foldl (fun acc y => if qcmp (w acc) (w y) = Ordering.gt then y else acc) a) ≤ w a ∧
      ∀ y ∈ l,
        w (l.foldl (fun acc y => if qcmp (w acc) (w y) = Ordering.gt then y else acc) a) ≤ w y := by
  intro l
  induction l with
  | nil => intro a; exact ⟨le_refl _, by simp⟩
  | cons x t ih =>
      intro a
      simp only [List.foldl_cons]
      by_cases hgt : qcmp (w a) (w x) = Ordering.gt
      · rw [if_pos hgt]
        obtain ⟨ih1, ih2⟩ := ih x
        have hlt : w x < w a := qcmp_eq_gt_iff.mp hgt
        refine ⟨le_of_lt (lt_of_le_of_lt ih1 hlt), ?_⟩
        intro y hy
        rcases List.mem_cons.mp hy with hy | hy
        · rw [hy]; exact ih1
        · exact ih2 y hy
      · rw [if_neg hgt]
        obtain ⟨ih1, ih2⟩ := ih a
        have hle : w a ≤ w x := le_of_not_lt (fun h => hgt (qcmp_eq_gt_iff.mpr h))
        refine ⟨ih1, ?_⟩
        intro y hy
        rcases List.mem_cons.mp hy with hy | hy
        · rw [hy]; exact le_trans ih1 hle
        · exact ih2 y hy

theorem minBy_qcmp_le {α : Type} (w : α → ℚ) {l : List α} {x : α}
    (h : minBy (fun a b => qcmp (w a) (w b)) l = some x) :
    ∀ y ∈ l, w x ≤ w y := by
  cases l with
  | nil => simp [minBy] at h
  | cons a t =>
      simp only [minBy, Option.some.injEq] at h
      intro y hy
      obtain ⟨h1, h2⟩ := foldl_minBy_le w t a
      rw [h] at h1 h2
      rcases List.mem_cons.mp hy with hy | hy
      · rw [hy]; exact h1
      · exact h2 y hy

/-- `find?` over a list of key-value pairs after setting position `i`
(whose stored key is `k`, with no earlier occurrence of `k`) finds the
new value at `k`. -/
theorem find?_set_self {β : Type} :
    ∀ {l : List (N × β)} {i : ℕ} {k : N} {v : β} (hlen : i < l.length),
      (l.get ⟨i, hlen⟩).1 = k →
      (∀ j (hj : j < i) (hjl : j < l.length), (l.get ⟨j, hjl⟩).1 ≠ k) →
      (l.set i (k, v)).find? (fun p => decide (p.1 = k)) = some (k, v) := by
  intro l
  induction l with
  | nil => intro i k v hlen; simp at hlen
  | cons a t ih =>
      intro i k v hlen hkey hbef
      cases i with
      | zero =>
          simp only [List.set_cons_zero, List.find?_cons, decide_eq_true_eq]
          simp
      | succ n =>
          have ha : a.1 ≠ k := by
            have := hbef 0 (Nat.succ_pos n) (by simp)
            simpa using this
          simp only [List.set_cons_succ, List.find?_cons]
          rw [show (decide (a.1 = k)) = false by simp [ha]]
          exact ih (Nat.lt_of_succ_lt_succ hlen) hkey
            (fun j hj hjl => by
              have := hbef (j + 1) (Nat.succ_lt_succ hj) (Nat.succ_lt_succ hjl)
              simpa using this)

/-- `find?` for a different key is unchanged by setting position `i` when
the stored key at `i` is preserved. -/
theorem find?_set_of_ne {β : Type} :
    ∀ {l : List (N × β)} {i : ℕ} {k k' : N} {v : β} (hlen : i < l.length),
      (l.get ⟨i, hlen⟩).1 = k → k' ≠ k →
      (l.set i (k, v)).find? (fun p => decide (p.1 = k')) =
        l.find? (fun p => decide (p.1 = k')) := by
  intro l
  induction l with
  | nil => intro i k k' v hlen; simp at hlen
  | cons a t ih =>
      intro i k k' v hlen hkey hne
      cases i with
      | zero =>
          have ha : a.1 = k := by simpa using hkey
          have hkk' : ¬(k = k') := fun h => hne h.symm
          have hak' : ¬(a.1 = k') := by rw [ha]; exact hkk'
          simp only [List.set_cons_zero, List.find?_cons]
          rw [show (decide ((k, v).1 = k')) = false by simpa using hkk',
              show (decide (a.1 = k')) = false by simpa using hak']
      | succ n =>
          simp only [List.set_cons_succ, List.find?_cons]
          cases hak : decide (a.1 = k')
          · exact ih (Nat.lt_of_succ_lt_succ hlen) hkey hne
          · rfl

theorem optMap_none_of_mem {α β : Type} {f : α → Option β} :
    ∀ {l : List α} {a : α}, a ∈ l → f a = none → optMap f l = none := by
  intro l
  induction l with
  | nil => intro a ha; simp at ha
  | cons x t ih =>
      intro a ha hf
      rcases List.mem_cons.mp ha with ha | ha
      · subst ha
        cases h2 : optMap f t <;> simp [optMap, hf, h2]
      · cases h1 : f x <;> simp [optMap, h1, ih ha hf]

theorem findIdx?_append_singleton_true {α : Type} {p : α → Bool} {l : List α}
    {x : α} (h : l.findIdx? p = none) (hx : p x = true) :
    (l ++ [x]).findIdx? p = some l.length := by
  rw [List.findIdx?_eq_some_iff_getElem]
  have hlen : l.length < (l ++ [x]).length := by simp
  refine ⟨hlen, ?_, ?_⟩
  · have : (l ++ [x])[l.length] = x := by
      rw [List.getElem_append_right (le_refl l.length)]
      simp
    rw [this]; exact hx
  · intro j hj
    have hjl : j < l.length := hj
    have : (l ++ [x])[j] = l[j] := List.getElem_append_left hjl
    rw [this]
    have := List.findIdx?_eq_none_iff.mp h l[j] (List.getElem_mem hjl)
    simp [this]

theorem foldl_addOut_edges :
    ∀ (ss : List N) (g : Hypergraph N E) (i : ℕ),
      (ss.foldl (fun h k => h.addOut k i) g).edges = g.edges := by
  intro ss
  induction ss with
  | nil => intro g i; rfl
  | cons s t ih => intro g i; rw [List.foldl_cons, ih]; rfl

theorem foldl_addIn_edges :
    ∀ (ds : List N) (g : Hypergraph N E) (i : ℕ),
      (ds.foldl (fun h k => h.addIn k i) g).edges = g.edges := by
  intro ds
  induction ds with
  | nil => intro g i; rfl
  | cons d t ih => intro g i; rw [List.foldl_cons, ih]; rfl

/-- `insert_edge` on a fresh (sources, destinations) shape: the edge is
appended at index `size()` and the adjacency of the listed keys is
updated. -/
theorem insert_edge_fresh_eq (g : Hypergraph N E) (ss ds : List N) (w : E)
    (si di : List ℕ) (hss : g.mapIdx? ss = some si) (hds : g.mapIdx? ds = some di)
    (hfresh : g.edges.findIdx?
      (fun e => decide (e.src = si.toFinset ∧ e.dst = di.toFinset)) = none) :
    g.insert_edge ss ds w = RustRes.ok
      (ds.foldl (fun h k => h.addIn k g.edges.length)
        (ss.foldl (fun h k => h.addOut k g.edges.length)
          { g with edges := g.edges ++ [⟨si.toFinset, di.toFinset, w⟩] }),
       g.edges.length) := by
  unfold Hypergraph.insert_edge
  rw [hss, hds]
  simp only [hfresh]

/-- `insert_edge` on an already-stored shape: the stored index is re-added
to the adjacency of the listed keys (a no-op when already present) and
returned; the edge arena is untouched. -/
theorem insert_edge_dup_eq (g : Hypergraph N E) (ss ds : List N) (w : E)
    (si di : List ℕ) (i : ℕ)
    (hss : g.mapIdx? ss = some si) (hds : g.mapIdx? ds = some di)
    (hfound : g.edges.findIdx?
      (fun e => decide (e.src = si.toFinset ∧ e.dst = di.toFinset)) = some i) :
    g.insert_edge ss ds w = RustRes.ok
      (ds.foldl (fun h k => h.addIn k i)
        (ss.foldl (fun h k => h.addOut k i) g), i) := by
  unfold Hypergraph.insert_edge
  rw [hss, hds]
  simp only [hfound]

/-! ## Claim theorems -/

/-- C5: calling `insert_node` with a key already present returns the
node's existing insertion-order index and resets that node's adjacency
record to empty, while every other node's record, the node count
`order()`, and the stored edges are unchanged. -/
theorem C5_insert_node_reinsert (g : Hypergraph N E) (k : N) (i : ℕ)
    (h : g.nodeIndex k = some i) :
    (g.insert_node k).2 = i ∧
    (g.insert_node k).1.edges = g.edges ∧
    (g.insert_node k).1.order = g.order ∧
    (g.insert_node k).1.getNode? k = some Hypernode.new ∧
    ∀ k', k' ≠ k → (g.insert_node k).1.getNode? k' = g.getNode? k' := by
  have h' := h
  unfold Hypergraph.nodeIndex at h'
  obtain ⟨hlen, hkey, hbef⟩ := List.findIdx?_eq_some_iff_getElem.mp h'
  simp only [decide_eq_true_eq] at hkey
  have hbef' : ∀ j (hj : j < i) (hjl : j < g.nodes.length),
      (g.nodes.get ⟨j, hjl⟩).1 ≠ k := by
    intro j hj hjl
    have := hbef j hj
    simpa using this
  unfold Hypergraph.insert_node
  rw [h']
  refine ⟨rfl, rfl, ?_, ?_, ?_⟩
  · simp [Hypergraph.order]
  · unfold Hypergraph.getNode?
    simp only
    rw [find?_set_self hlen hkey hbef']
    rfl
  · intro k' hk'
    unfold Hypergraph.getNode?
    simp only
    rw [find?_set_of_ne hlen hkey hk']

/-! ### Build certification of the concrete instances -/

theorem gW_built :
    build [Op.node "a", Op.node "b", Op.edge ["a"] ["b"] 5] = some gW := by decide

theorem gW0_built : build [Op.node "a", Op.node "b"] = some gW0 := by decide

theorem gReset_built :
    build [Op.node "a", Op.node "b", Op.edge ["a"] ["b"] 5, Op.node "a"] =
      some gReset := by decide

theorem gTie_built :
    build [Op.node "T", Op.node "A", Op.node "B",
      Op.edge ["A"] ["T"] cr1, Op.edge ["B"] ["T"] cr2] = some gTie := by decide

theorem gNeg_built : build [Op.node "T", Op.edge [] ["T"] cneg] = some gNeg := by
  decide

theorem gBig_built :
    build [Op.node "T", Op.node "A", Op.edge ["A"] ["T"] cbig1,
      Op.edge [] ["A"] cbig2] = some gBig := by decide

theorem gOne_built : build [Op.node "b"] = some gOne := by decide

theorem gDia_built :
    build [Op.node "T", Op.node "A", Op.node "B", Op.node "C",
      Op.edge ["A", "B"] ["T"] dT, Op.edge ["C"] ["A"] dA,
      Op.edge ["C"] ["B"] dB, Op.edge [] ["C"] dC] = some gDia := by decide

/-! ### C7 -/

/-- C7 (amended): `insert_edge` with a never-inserted source or
destination key panics — the `unwrap` inside the index-mapping closure
aborts the process — rather than returning a recoverable
`NodeNotFound(key)` result; the missing key is never silently
defaulted. -/
theorem C7_insert_edge_missing_key (g : Hypergraph N E) (ss ds : List N)
    (w : E) (k : N) (hk : k ∈ ss ++ ds) (hmiss : g.nodeIndex k = none) :
    g.insert_edge ss ds w = RustRes.panic := by
  unfold Hypergraph.insert_edge
  rcases List.mem_append.mp hk with hk | hk
  · have h1 : g.mapIdx? ss = none := optMap_none_of_mem hk hmiss
    rw [h1]
  · have h2 : g.mapIdx? ds = none := optMap_none_of_mem hk hmiss
    rw [h2]
    cases g.mapIdx? ss <;> rfl

/-- C7, the claim as stated, refuted at a concrete input: inserting an
edge whose source key `x` was never inserted panics; the outcome is not
a recoverable `err` result carrying the key. -/
theorem C7_cex :
    gW.insert_edge ["x"] ["b"] 7 = RustRes.panic ∧
    (gW.insert_edge ["x"] ["b"] 7).isErr = false := by decide

/-- Witness instantiating `C7_insert_edge_missing_key` at a concrete
input. -/
theorem C7_witness : gW.insert_edge ["x"] ["b"] 9 = RustRes.panic :=
  C7_insert_edge_missing_key gW ["x"] ["b"] 9 "x" (by decide) (by decide)

/-! ### C6 -/

/-- C6 (amended): resolution fails by panicking — both when the target
key was never inserted (`neighbor_of` returns its error, which
`least_waste_heuristic` unwraps) and when the target has no incoming
edges (`min_by` of an empty iterator returns `None`, and `dep_tree`
unwraps the heuristic's `None`); no explicit `NoProducer` or
`NodeNotFound` result reaches the caller. -/
theorem C6_resolve_failure_panics (ρ : List ℕ → List ℕ)
    (hρ : ∀ l, (ρ l).Perm l) (g : Hypergraph String Recipe)
    (w : String) (req : ℚ) (fuel : ℕ) :
    (g.getNode? w = none → depTreeF ρ g (fuel + 1) w req = DepRes.panic) ∧
    (∀ nd, g.getNode? w = some nd → nd.neighbor_of = [] →
      depTreeF ρ g (fuel + 1) w req = DepRes.panic) := by
  constructor
  · intro h
    simp [depTreeF, leastWasteHeuristic, h]
  · intro nd h hemp
    have hnil : ρ [] = [] := (hρ []).eq_nil
    simp [depTreeF, leastWasteHeuristic, h, hemp, hnil, optMap, minBy]

/-- C6, the claim as stated, refuted at a concrete input: the resolution
failure for a never-inserted key `a` and for the edge-less key `b` are
the same panic (an `unwrap` abort), not two distinguishable explicit
results — even though the node lookup can report its string error. -/
theorem C6_cex :
    depTreeF id gOne 1 "a" 1 = DepRes.panic ∧
    depTreeF id gOne 1 "b" 1 = DepRes.panic ∧
    gOne.neighbor_of "a" = RustRes.err "Node does not exist" :=
  ⟨rfl, rfl, rfl⟩

/-- Witness instantiating `C6_resolve_failure_panics` at concrete
inputs. -/
theorem C6_witness :
    depTreeF id gOne 3 "a" 1 = DepRes.panic ∧
    depTreeF id gOne 3 "b" 1 = DepRes.panic := by
  constructor
  · exact (C6_resolve_failure_panics id (fun l => List.Perm.refl l) gOne "a" 1 2).1 rfl
  · exact (C6_resolve_failure_panics id (fun l => List.Perm.refl l) gOne "b" 1 2).2
      ⟨[], []⟩ rfl rfl

/-! ### C2 -/

/-- C2: a second `insert_edge` whose (sources, destinations) set-pair
equals that of an already-stored edge returns the stored edge's index,
`size()` grows by exactly one over the two insertions (not two), and
`get_weight` at that index still returns the first payload — the second
payload is discarded. -/
theorem C2_duplicate_edge_insert (g g1 : Hypergraph N E)
    (ss ds ss' ds' : List N) (w w' : E) (si di si' di' : List ℕ) (i1 : ℕ)
    (hss : g.mapIdx? ss = some si) (hds : g.mapIdx? ds = some di)
    (hfresh : g.edges.findIdx?
      (fun e => decide (e.src = si.toFinset ∧ e.dst = di.toFinset)) = none)
    (h1 : g.insert_edge ss ds w = RustRes.ok (g1, i1))
    (hss' : g1.mapIdx? ss' = some si') (hds' : g1.mapIdx? ds' = some di')
    (heqs : si'.toFinset = si.toFinset) (heqd : di'.toFinset = di.toFinset) :
    i1 = g.size ∧ g1.size = g.size + 1 ∧
    (g1.insert_edge ss' ds' w').isOk = true ∧
    ∀ g2 i2, g1.insert_edge ss' ds' w' = RustRes.ok (g2, i2) →
      i2 = i1 ∧ g2.size = g.size + 1 ∧ g2.get_weight i1 = RustRes.ok w := by
  have hfe := insert_edge_fresh_eq g ss ds w si di hss hds hfresh
  rw [h1] at hfe
  simp only [RustRes.ok.injEq, Prod.mk.injEq] at hfe
  obtain ⟨hg1, hi1⟩ := hfe
  have hg1edges : g1.edges = g.edges ++ [⟨si.toFinset, di.toFinset, w⟩] := by
    rw [hg1, foldl_addIn_edges, foldl_addOut_edges]
  have hfound : g1.edges.findIdx?
      (fun e => decide (e.src = si'.toFinset ∧ e.dst = di'.toFinset)) =
        some g.edges.length := by
    rw [hg1edges, heqs, heqd]
    exact findIdx?_append_singleton_true hfresh (by simp)
  have hde := insert_edge_dup_eq g1 ss' ds' w' si' di' g.edges.length
    hss' hds' hfound
  refine ⟨?_, ?_, ?_, ?_⟩
  · rw [hi1]; rfl
  · unfold Hypergraph.size
    rw [hg1edges]
    simp [Hypergraph.size]
  · rw [hde]; rfl
  · intro g2 i2 h2
    rw [hde] at h2
    simp only [RustRes.ok.injEq, Prod.mk.injEq] at h2
    obtain ⟨hg2, hi2⟩ := h2
    have hg2edges : g2.edges = g1.edges := by
      rw [← hg2, foldl_addIn_edges, foldl_addOut_edges]
    refine ⟨by rw [← hi2, hi1], ?_, ?_⟩
    · unfold Hypergraph.size
      rw [hg2edges, hg1edges]
      simp
    · unfold Hypergraph.get_weight
      rw [hg2edges, hg1edges, hi1]
      have : (g.edges ++ [(⟨si.toFinset, di.toFinset, w⟩ : Hyperedge E)])[g.edges.length]? =
          some ⟨si.toFinset, di.toFinset, w⟩ := by
        rw [List.getElem?_append_right (le_refl g.edges.length)]
        simp
      rw [this]

/-- Witness instantiating `C2_duplicate_edge_insert` at a concrete pair
of insertions. -/
theorem C2_witness :
    gW0.insert_edge ["a"] ["b"] 5 = RustRes.ok (gW, 0) ∧
    gW.size = gW0.size + 1 ∧
    (gW.insert_edge ["a"] ["b"] 7).isOk = true ∧
    gW.insert_edge ["a"] ["b"] 7 = RustRes.ok (gW, 0) ∧
    gW.get_weight 0 = RustRes.ok 5 := by
  obtain ⟨h1, h2, h3, h4⟩ := C2_duplicate_edge_insert gW0 gW
    ["a"] ["b"] ["a"] ["b"] 5 7 [0] [1] [0] [1] 0
    (by decide) (by decide) (by decide) (by decide) (by decide) (by decide)
    (by decide) (by decide)
  obtain ⟨h5, h6, h7⟩ := h4 gW 0 (by decide)
  exact ⟨by decide, h2, h3, by decide, h7⟩

/-- Witness instantiating `C5_insert_node_reinsert` at a concrete
graph. -/
theorem C5_witness :
    (gW.insert_node "a").2 = 0 ∧
    (gW.insert_node "a").1.getNode? "a" = some Hypernode.new ∧
    (gW.insert_node "a").1.getNode? "b" = gW.getNode? "b" ∧
    (gW.insert_node "a").1.edges = gW.edges := by
  obtain ⟨h1, h2, h3, h4, h5⟩ := C5_insert_node_reinsert gW "a" 0 (by decide)
  exact ⟨h1, h4, h5 "b" (by decide), h2⟩

/-! ### Heuristic soundness (used by C1, C4 and C9) -/

theorem optMap_some_of_forall {α β : Type} {f : α → Option β} :
    ∀ {l : List α}, (∀ a ∈ l, ∃ b, f a = some b) →
      ∃ l', optMap f l = some l' := by
  intro l
  induction l with
  | nil => intro h; exact ⟨[], rfl⟩
  | cons a t ih =>
      intro h
      obtain ⟨b, hb⟩ := h a (List.mem_cons_self a t)
      obtain ⟨bs, hbs⟩ := ih (fun x hx => h x (List.mem_cons_of_mem a hx))
      exact ⟨b :: bs, by simp [optMap, hb, hbs]⟩

theorem optMap_length {α β : Type} {f : α → Option β} :
    ∀ {l : List α} {l' : List β}, optMap f l = some l' →
      l'.length = l.length := by
  intro l
  induction l with
  | nil => intro l' h; simp [optMap] at h; simp [← h]
  | cons a t ih =>
      intro l' h
      simp only [optMap] at h
      cases hfa : f a with
      | none => rw [hfa] at h; simp at h
      | some b =>
          rw [hfa] at h
          cases ht : optMap f t with
          | none => rw [ht] at h; simp at h
          | some bs =>
              rw [ht] at h
              simp only [Option.some.injEq] at h
              subst h
              simp [ih ht]

theorem candOf_eq_some {req : ℚ} {w : String} {r : Recipe}
    {b : Recipe × ℚ × ℚ} (h : candOf req w r = some b) :
    ∃ rr, r.rate w = some rr ∧ rr ≠ 0 ∧ b = (r, rr, rfract (req / rr)) := by
  unfold candOf at h
  cases hr : r.rate w with
  | none => simp [hr] at h
  | some rr =>
      simp only [hr] at h
      by_cases hz : rr = 0
      · simp [hz] at h
      · simp only [if_neg hz, Option.some.injEq] at h
        exact ⟨rr, rfl, hz, h.symm⟩

/-- When the heuristic returns a selection, the selected recipe is the
payload of an incoming edge of the widget, its waste is minimal among
the payloads of all incoming edges, and the multiplier is the `u64` cast
of `⌈req / rate⌉`. -/
theorem leastWasteHeuristic_sound (ρ : List ℕ → List ℕ)
    (hρ : ∀ l, (ρ l).Perm l) (g : Hypergraph String Recipe)
    (wdg : String) (req : ℚ) (r : Recipe) (m : ℕ)
    (h : leastWasteHeuristic ρ g wdg req = RustRes.ok (some (r, m))) :
    ∃ nd, g.getNode? wdg = some nd ∧
      (∃ i ∈ nd.neighbor_of, ∃ e, g.edges[i]? = some e ∧ e.weight = r) ∧
      ∃ rr, r.rate wdg = some rr ∧ rr ≠ 0 ∧ m = i64ToU64 ⌈req / rr⌉ ∧
        ∀ i ∈ nd.neighbor_of, ∀ e, g.edges[i]? = some e →
          ∃ rr', e.weight.rate wdg = some rr' ∧ rr' ≠ 0 ∧
            rfract (req / rr) ≤ rfract (req / rr') := by
  unfold leastWasteHeuristic at h
  rcases hnd : g.getNode? wdg with _ | nd
  · simp [hnd] at h
  · simp only [hnd] at h
    rcases h1 : optMap (fun i => (g.edges[i]?).map (fun e => e.weight))
        (ρ nd.neighbor_of) with _ | recipes
    · simp [h1] at h
    · simp only [h1] at h
      rcases h2 : optMap (candOf req wdg) recipes with _ | cands
      · simp [h2] at h
      · simp only [h2] at h
        rcases h3 : minBy (fun a b => qcmp a.2.2 b.2.2) cands with _ | best
        · simp [h3] at h
        · simp only [h3, RustRes.ok.injEq, Option.some.injEq,
            Prod.mk.injEq] at h
          obtain ⟨hr, hm⟩ := h
          have hbest_mem : best ∈ cands := minBy_mem _ h3
          obtain ⟨rec, hrec_mem, hrec⟩ := optMap_mem_of h2 best hbest_mem
          obtain ⟨rr, hrate, hrr0, hbeq⟩ := candOf_eq_some hrec
          have hbest1 : best.1 = rec := by rw [hbeq]
          have hbest21 : best.2.1 = rr := by rw [hbeq]
          have hbest22 : best.2.2 = rfract (req / rr) := by rw [hbeq]
          obtain ⟨i, hiρ, hie⟩ := optMap_mem_of h1 rec hrec_mem
          have hi : i ∈ nd.neighbor_of := (hρ nd.neighbor_of).mem_iff.mp hiρ
          rcases hedge : g.edges[i]? with _ | e
          · rw [hedge] at hie; simp at hie
          · rw [hedge] at hie
            have hie' : e.weight = rec := by simpa using hie
            refine ⟨nd, rfl, ⟨i, hi, e, hedge, by rw [hie', ← hbest1, hr]⟩,
              rr, ?_, hrr0, ?_, ?_⟩
            · rw [← hr, hbest1]; exact hrate
            · rw [← hm, hbest21]
            · intro j hj e' hje
              have hjρ : j ∈ ρ nd.neighbor_of :=
                (hρ nd.neighbor_of).mem_iff.mpr hj
              obtain ⟨rec', hrec'_mem, hrec'⟩ := optMap_forall h1 j hjρ
              rw [hje] at hrec'
              have hrec'' : e'.weight = rec' := by simpa using hrec'
              obtain ⟨b', hb'_mem, hb'⟩ := optMap_forall h2 rec' hrec'_mem
              obtain ⟨rr', hrate', hrr0', hb'eq⟩ := candOf_eq_some hb'
              refine ⟨rr', by rw [hrec'']; exact hrate', hrr0', ?_⟩
              have hmin : best.2.2 ≤ b'.2.2 :=
                @minBy_qcmp_le (Recipe × ℚ × ℚ) (fun x => x.2.2)
                  cands best h3 b' hb'_mem
              rw [hbest22] at hmin
              rw [hb'eq] at hmin
              exact hmin

theorem gSel_built :
    build [Op.node "T", Op.node "A", Op.node "B",
      Op.edge ["A"] ["T"] cfast, Op.edge ["B"] ["T"] cslow] = some gSel := by
  decide


/-! ### C1 -/

/-- Evaluation of the heuristic at the least-waste-law scenario of §8:
rates 2 and 1, requested rate `3/2`; wastes `3/4` and `1/2`; the slow
recipe wins with multiplier `⌈3/2⌉ = 2`. -/
theorem gSel_heuristic_eval :
    leastWasteHeuristic id gSel "T" (3 / 2) = RustRes.ok (some (cslow, 2)) := by
  simp [leastWasteHeuristic, gSel, Hypergraph.getNode?, optMap, candOf,
    Recipe.rate, cfast, cslow, minBy, qcmp, rfract, rtrunc, u64ToI64, i64ToU64,
    Int.bmod]
  norm_num
  have h : ⌈(3 : ℚ) / 2⌉ = (2 : ℤ) := by
    rw [Int.ceil_eq_iff]
    constructor
    · norm_num
    · norm_num
  rw [h]
  rfl

/-- C1 (amended): for every graph, target key present with at least one
incoming edge, requested rate, and every iteration order of the
adjacency hash set (all candidates having a well-formed nonzero rate),
the heuristic succeeds and selects a candidate recipe, carried by an
incoming edge, whose waste `fract(req / rate)` is minimal among the
payloads of all incoming edges.  Which of several equal-waste candidates
is selected depends on the hash set's iteration order — not on the
stored edge order (see the counterexample). -/
theorem C1_least_waste_selection (ρ : List ℕ → List ℕ)
    (hρ : ∀ l, (ρ l).Perm l) (g : Hypergraph String Recipe)
    (wdg : String) (req : ℚ) (nd : Hypernode)
    (hnd : g.getNode? wdg = some nd)
    (hne : nd.neighbor_of ≠ [])
    (hok : ∀ i ∈ nd.neighbor_of, ∃ e, g.edges[i]? = some e ∧
      ∃ b, candOf req wdg e.weight = some b) :
    ∃ r m, leastWasteHeuristic ρ g wdg req = RustRes.ok (some (r, m)) ∧
      (∃ i ∈ nd.neighbor_of, ∃ e, g.edges[i]? = some e ∧ e.weight = r) ∧
      ∃ rr, r.rate wdg = some rr ∧ rr ≠ 0 ∧
        ∀ i ∈ nd.neighbor_of, ∀ e, g.edges[i]? = some e →
          ∃ rr', e.weight.rate wdg = some rr' ∧ rr' ≠ 0 ∧
            rfract (req / rr) ≤ rfract (req / rr') := by
  obtain ⟨recipes, h1⟩ :
      ∃ l', optMap (fun i => (g.edges[i]?).map (fun e => e.weight))
        (ρ nd.neighbor_of) = some l' := by
    refine optMap_some_of_forall ?_
    intro i hiρ
    obtain ⟨e, hedge, _⟩ := hok i ((hρ nd.neighbor_of).mem_iff.mp hiρ)
    exact ⟨e.weight, by rw [hedge]; rfl⟩
  obtain ⟨cands, h2⟩ :
      ∃ l', optMap (candOf req wdg) recipes = some l' := by
    refine optMap_some_of_forall ?_
    intro rec hrec
    obtain ⟨i, hiρ, hie⟩ := optMap_mem_of h1 rec hrec
    obtain ⟨e, hedge, b, hb⟩ := hok i ((hρ nd.neighbor_of).mem_iff.mp hiρ)
    rw [hedge] at hie
    have hie' : e.weight = rec := by simpa using hie
    exact ⟨b, by rw [← hie']; exact hb⟩
  have hcne : cands ≠ [] := by
    intro hnil
    have hl2 := optMap_length h2
    have hl1 := optMap_length h1
    have hlρ := (hρ nd.neighbor_of).length_eq
    rw [hnil] at hl2
    have hz : nd.neighbor_of.length = 0 := by
      rw [← hlρ, ← hl1, ← hl2]
      rfl
    exact hne (List.length_eq_zero.mp hz)
  obtain ⟨best, h3⟩ :
      ∃ b, minBy (fun a b => qcmp a.2.2 b.2.2) cands = some b := by
    cases cands with
    | nil => exact absurd rfl hcne
    | cons c cs => exact ⟨_, rfl⟩
  have heval : leastWasteHeuristic ρ g wdg req =
      RustRes.ok (some (best.1, i64ToU64 ⌈req / best.2.1⌉)) := by
    unfold leastWasteHeuristic
    simp only [hnd, h1, h2, h3]
  obtain ⟨nd', hnd', hmem, rr, hrate, hrr0, _, hmin⟩ :=
    leastWasteHeuristic_sound ρ hρ g wdg req best.1 (i64ToU64 ⌈req / best.2.1⌉)
      heval
  have hnd'' : nd' = nd := by
    rw [hnd] at hnd'
    exact (Option.some.inj hnd').symm
  subst hnd''
  exact ⟨best.1, i64ToU64 ⌈req / best.2.1⌉, heval, hmem, rr, hrate, hrr0, hmin⟩

/-- C1, the claim as stated, refuted at a concrete input: edges 0 and 1
carry the equal-waste candidates `cr1` and `cr2`; under the identity
iteration order of the stored adjacency list the heuristic selects
`cr2`, which is not the first candidate in the graph's stored edge order
(edge 0, payload `cr1`), and under the reversed order it selects `cr1`:
the tie outcome depends on the hash set's iteration order, so it is not
determined by the stored edge order and is not deterministic. -/
theorem C1_cex :
    gTie.get_weight 0 = RustRes.ok cr1 ∧
    gTie.get_weight 1 = RustRes.ok cr2 ∧
    leastWasteHeuristic id gTie "T" 1 = RustRes.ok (some (cr2, 1)) ∧
    leastWasteHeuristic List.reverse gTie "T" 1 =
      RustRes.ok (some (cr1, 1)) ∧
    cr1 ≠ cr2 := by
  refine ⟨by decide, by decide, ?_, ?_, by decide⟩
  · simp [leastWasteHeuristic, gTie, Hypergraph.getNode?, optMap, candOf,
      Recipe.rate, cr1, cr2, minBy, qcmp, rfract, rtrunc, u64ToI64, i64ToU64,
      Int.bmod]
  · simp [leastWasteHeuristic, gTie, Hypergraph.getNode?, optMap, candOf,
      Recipe.rate, cr1, cr2, minBy, qcmp, rfract, rtrunc, u64ToI64, i64ToU64,
      Int.bmod]

/-- Witness instantiating `C1_least_waste_selection` at the concrete
least-waste-law scenario of §8: the slow, lower-waste recipe is
selected. -/
theorem C1_witness :
    leastWasteHeuristic id gSel "T" (3 / 2) = RustRes.ok (some (cslow, 2)) ∧
    rfract ((3 / 2 : ℚ) / 1) ≤ rfract ((3 / 2 : ℚ) / 2) := by
  have hok : ∀ i ∈ ([1, 0] : List ℕ), ∃ e, gSel.edges[i]? = some e ∧
      ∃ b, candOf (3 / 2) "T" e.weight = some b := by
    intro i hi
    rcases List.mem_pair.mp hi with hi | hi <;> subst hi
    · refine ⟨⟨{2}, {0}, cslow⟩, rfl,
        (cslow, 1, rfract ((3 / 2 : ℚ) / 1)), ?_⟩
      simp [candOf, Recipe.rate, cslow, u64ToI64, Int.bmod]
    · refine ⟨⟨{1}, {0}, cfast⟩, rfl,
        (cfast, 2, rfract ((3 / 2 : ℚ) / 2)), ?_⟩
      simp [candOf, Recipe.rate, cfast, u64ToI64, Int.bmod]
  obtain ⟨r, m, h, hmem, rr, hrate, hrr0, hmin⟩ :=
    C1_least_waste_selection id (fun l => List.Perm.refl l) gSel "T" (3 / 2)
      ⟨[], [1, 0]⟩ rfl (by decide) hok
  rw [gSel_heuristic_eval] at h
  simp only [RustRes.ok.injEq, Option.some.injEq, Prod.mk.injEq] at h
  obtain ⟨hr, _⟩ := h
  have hrr1 : rr = 1 := by
    have hcs : cslow.rate "T" = some 1 := by
      simp [Recipe.rate, cslow, u64ToI64, Int.bmod]
    rw [← hr, hcs] at hrate
    exact (Option.some.inj hrate).symm
  obtain ⟨rr', hrate', _, hle⟩ :=
    hmin 0 (by decide) ⟨{1}, {0}, cfast⟩ rfl
  have hrr2 : rr' = 2 := by
    have hcf : cfast.rate "T" = some 2 := by
      simp [Recipe.rate, cfast, u64ToI64, Int.bmod]
    rw [hcf] at hrate'
    exact (Option.some.inj hrate').symm
  rw [hrr1, hrr2] at hle
  exact ⟨gSel_heuristic_eval, hle⟩

/-! ### C4 -/

/-- C4 (amended): when the heuristic selects a candidate whose rate is
positive, the requested rate is nonnegative, and the ceiling fits in
`i64`, the multiplier equals `⌈req / rate⌉` computed over exact
rationals, and it is zero exactly when the requested rate is zero.  (For
a merely nonzero — negative — candidate rate the multiplier can be zero
with a nonzero requested rate; see the counterexample.) -/
theorem C4_multiplier_is_ceil (ρ : List ℕ → List ℕ)
    (hρ : ∀ l, (ρ l).Perm l) (g : Hypergraph String Recipe)
    (wdg : String) (req : ℚ) (r : Recipe) (m : ℕ) (rr : ℚ)
    (h : leastWasteHeuristic ρ g wdg req = RustRes.ok (some (r, m)))
    (hrr : r.rate wdg = some rr) (hpos : 0 < rr) (hreq : 0 ≤ req)
    (hceil : ⌈req / rr⌉ < 2 ^ 63) :
    (m : ℤ) = ⌈req / rr⌉ ∧ (m = 0 ↔ req = 0) := by
  obtain ⟨nd, hnd, hmem, rr', hrate', hrr0', hm, hmin⟩ :=
    leastWasteHeuristic_sound ρ hρ g wdg req r m h
  have hrreq : rr = rr' := by
    rw [hrr] at hrate'
    exact Option.some.inj hrate'
  subst hrreq
  have hc0 : 0 ≤ ⌈req / rr⌉ :=
    Int.ceil_nonneg (div_nonneg hreq (le_of_lt hpos))
  have hmod : ⌈req / rr⌉ % (2 ^ 64 : ℤ) = ⌈req / rr⌉ :=
    Int.emod_eq_of_lt hc0 (lt_trans hceil (by norm_num))
  have hmz : (m : ℤ) = ⌈req / rr⌉ := by
    rw [hm]
    unfold i64ToU64
    rw [hmod]
    exact Int.toNat_of_nonneg hc0
  refine ⟨hmz, ?_, ?_⟩
  · intro hm0
    have hz : ⌈req / rr⌉ = 0 := by
      rw [← hmz, hm0]
      simp
    obtain ⟨_, hle⟩ := Set.mem_Ioc.mp (Int.ceil_eq_zero_iff.mp hz)
    have hge : 0 ≤ req / rr := div_nonneg hreq (le_of_lt hpos)
    have h0 : req / rr = 0 := le_antisymm hle hge
    rcases div_eq_zero_iff.mp h0 with h0 | h0
    · exact h0
    · exact absurd h0 (ne_of_gt hpos)
  · intro h0
    subst h0
    have hz : ⌈(0 : ℚ) / rr⌉ = 0 := by
      rw [zero_div]
      exact Int.ceil_zero
    rw [hz] at hmz
    exact_mod_cast hmz

/-- C4 refuted as stated: at a concrete graph whose only producer has
nonzero (negative) rate `-1/2`, requesting rate `1/4` yields
multiplier `0` although the requested rate is nonzero. -/
theorem C4_cex :
    leastWasteHeuristic id gNeg "T" (1 / 4) = RustRes.ok (some (cneg, 0)) ∧
    cneg.rate "T" = some (-(1 / 2)) ∧
    (-(1 / 2) : ℚ) ≠ 0 ∧ (1 / 4 : ℚ) ≠ 0 := by
  refine ⟨?_, ?_, by norm_num, by norm_num⟩
  · simp [leastWasteHeuristic, gNeg, Hypergraph.getNode?, optMap, candOf,
      Recipe.rate, cneg, minBy, qcmp, rfract, rtrunc, u64ToI64, i64ToU64,
      Int.bmod]
    norm_num
    have h : ⌈-((1 : ℚ) / 2)⌉ = (0 : ℤ) := by
      rw [Int.ceil_eq_iff]
      constructor
      · norm_num
      · norm_num
    rw [h]
    decide
  · simp [Recipe.rate, cneg, u64ToI64, Int.bmod]
    norm_num

/-- Witness instantiating `C4_multiplier_is_ceil` at a concrete
selection. -/
theorem C4_witness :
    ((2 : ℕ) : ℤ) = ⌈(3 / 2 : ℚ) / 1⌉ ∧ ((2 : ℕ) = 0 ↔ (3 / 2 : ℚ) = 0) := by
  refine C4_multiplier_is_ceil id (fun l => List.Perm.refl l) gSel "T" (3 / 2)
    cslow 2 1 gSel_heuristic_eval ?_ (by norm_num) (by norm_num) ?_
  · simp [Recipe.rate, cslow, u64ToI64, Int.bmod]
  · have h : ⌈(3 / 2 : ℚ) / 1⌉ = (2 : ℤ) := by
      rw [Int.ceil_eq_iff]
      constructor
      · norm_num
      · norm_num
    rw [h]
    norm_num

/-! ### C3 -/

theorem gChain_built :
    build [Op.node "T", Op.node "A", Op.edge ["A"] ["T"] cch1,
      Op.edge [] ["A"] cch2] = some gChain := by decide

/-- A successfully computed rate means the duration is nonzero. -/
theorem rate_some_duration_ne_zero {r : Recipe} {w : String} {rr : ℚ}
    (h : r.rate w = some rr) : r.duration ≠ 0 := by
  unfold Recipe.rate at h
  cases hf : r.products.find? (fun p => decide (p.widget = w)) with
  | none => simp [hf] at h
  | some rg =>
      simp only [hf] at h
      by_cases hd : r.duration = 0
      · simp [hd] at h
      · exact hd

/-- The `u64 → i64` cast is the identity below `2^63`. -/
theorem u64ToI64_small {q : ℕ} (h : q < 2 ^ 63) : u64ToI64 q = (q : ℤ) := by
  simp only [u64ToI64, Int.bmod]
  split
  · omega
  · omega

/-- The cast-and-multiply of `dep_tree`'s child-rate computation is exact
whenever the product fits in `i64`. -/
theorem i64Mul_small {q m : ℕ} (h : q * m < 2 ^ 63) :
    i64Mul (u64ToI64 q) (u64ToI64 m) = ((q * m : ℕ) : ℤ) := by
  rcases Nat.eq_zero_or_pos q with hq | hq
  · subst hq
    simp [i64Mul, u64ToI64, Int.bmod]
  · rcases Nat.eq_zero_or_pos m with hm | hm
    · subst hm
      simp [i64Mul, u64ToI64, Int.bmod]
    · have hql : q < 2 ^ 63 := lt_of_le_of_lt (Nat.le_mul_of_pos_right q hm) h
      have hml : m < 2 ^ 63 := lt_of_le_of_lt (Nat.le_mul_of_pos_left m hq) h
      rw [u64ToI64_small hql, u64ToI64_small hml]
      have hcast : (q : ℤ) * (m : ℤ) = ((q * m : ℕ) : ℤ) := by push_cast; ring
      unfold i64Mul
      rw [hcast]
      exact u64ToI64_small h

/-- Characterization of a successful children collection: one tree per
entry, in order. -/
theorem collectChildren_trees :
    ∀ {l : List DepRes} {ts : List (NTree (Recipe × ℕ))},
      collectChildren l = ForestRes.trees ts →
      ts.length = l.length ∧
      ∀ (k : ℕ) (c : NTree (Recipe × ℕ)), ts[k]? = some c →
        l[k]? = some (DepRes.tree c) := by
  intro l
  induction l with
  | nil =>
      intro ts h
      simp only [collectChildren, ForestRes.trees.injEq] at h
      subst h
      exact ⟨rfl, by simp⟩
  | cons d rest ih =>
      intro ts h
      cases d with
      | tree t0 =>
          simp only [collectChildren] at h
          cases hc : collectChildren rest with
          | trees ts' =>
              rw [hc] at h
              simp only [ForestRes.trees.injEq] at h
              subst h
              obtain ⟨ihl, ihp⟩ := ih hc
              refine ⟨by simp [ihl], ?_⟩
              intro k c hk
              cases k with
              | zero =>
                  simp only [List.getElem?_cons_zero, Option.some.injEq] at hk
                  subst hk
                  simp
              | succ n =>
                  simp only [List.getElem?_cons_succ] at hk
                  simpa using ihp n c hk
          | panic => rw [hc] at h; simp at h
          | fuel => rw [hc] at h; simp at h
      | panic => simp [collectChildren] at h
      | fuel => simp [collectChildren] at h

/-- C3 (amended): for a selected recipe with duration `d` and multiplier
`m`, `dep_tree` produces exactly one child per reagent, in the declared
reagent order; and for every reagent of quantity `q` with `q * m < 2^63`
(the product fits in `i64`), the child subtree is exactly the recursive
resolution of that reagent at requested rate `q * m / d`, an exact
rational.  (When `q * m ≥ 2^63` the 64-bit casts in the source wrap and
the exact-rational claim fails; see the counterexample.) -/
theorem C3_child_rates (ρ : List ℕ → List ℕ) (hρ : ∀ l, (ρ l).Perm l)
    (g : Hypergraph String Recipe) (fuel : ℕ) (wdg : String) (req : ℚ)
    (r : Recipe) (m : ℕ) (t : NTree (Recipe × ℕ))
    (hsel : leastWasteHeuristic ρ g wdg req = RustRes.ok (some (r, m)))
    (hq : ∀ rg ∈ r.reagents, rg.quantity * m < 2 ^ 63)
    (ht : depTreeF ρ g (fuel + 1) wdg req = DepRes.tree t) :
    t.data = (r, m) ∧
    t.children.length = r.reagents.length ∧
    ∀ (k : ℕ) (rg : Reagent), r.reagents[k]? = some rg →
      ∃ c, t.children[k]? = some c ∧
        depTreeF ρ g fuel rg.widget
          (((rg.quantity * m : ℕ) : ℚ) / r.duration) = DepRes.tree c := by
  obtain ⟨nd, hnd, hmem, rr, hrate, hrr0, hm, hmin⟩ :=
    leastWasteHeuristic_sound ρ hρ g wdg req r m hsel
  have hdur : r.duration ≠ 0 := rate_some_duration_ne_zero hrate
  have hfun : r.reagents.map (fun rg =>
      if r.duration = 0 then DepRes.panic
      else depTreeF ρ g fuel rg.widget
        ((i64Mul (u64ToI64 rg.quantity) (u64ToI64 m) : ℚ) / r.duration)) =
    r.reagents.map (fun rg =>
      depTreeF ρ g fuel rg.widget
        (((rg.quantity * m : ℕ) : ℚ) / r.duration)) := by
    refine List.map_congr_left ?_
    intro rg hrg
    rw [if_neg hdur, i64Mul_small (hq rg hrg)]
    norm_cast
  simp only [depTreeF, hsel] at ht
  rw [hfun] at ht
  rcases hcc : collectChildren (r.reagents.map (fun rg =>
      depTreeF ρ g fuel rg.widget
        (((rg.quantity * m : ℕ) : ℚ) / r.duration)))
    with ts | _ | _
  · rw [hcc] at ht
    simp only [DepRes.tree.injEq] at ht
    subst ht
    obtain ⟨hlen, hpt⟩ := collectChildren_trees hcc
    refine ⟨rfl, ?_, ?_⟩
    · show ts.length = r.reagents.length
      rw [hlen, List.length_map]
    · intro k rg hk
      have hklt : k < r.reagents.length := by
        by_contra hge
        rw [List.getElem?_eq_none (Nat.le_of_not_lt hge)] at hk
        exact Option.noConfusion hk
      have hkts : k < ts.length := by
        rw [hlen, List.length_map]
        exact hklt
      obtain ⟨c, hc⟩ : ∃ c, ts[k]? = some c :=
        ⟨ts[k], List.getElem?_eq_getElem hkts⟩
      have hmap := hpt k c hc
      rw [List.getElem?_map, hk] at hmap
      simp at hmap
      refine ⟨c, hc, ?_⟩
      exact_mod_cast hmap
  · rw [hcc] at ht
    simp at ht
  · rw [hcc] at ht
    simp at ht

/-- C3 refuted as stated: the root of `gBig` is resolved with multiplier
1 and its single reagent has quantity `2^63`, so the claimed child rate
is exactly `2^63 * 1 / 1`; but the child actually appended was resolved
with the `i64`-wrapped rate `-2^63`, giving child multiplier
`as_u64(⌈-2^63 / 3⌉) = 15372286728091293014`, while resolving the
reagent at the exact rational rate gives `⌈2^63 / 3⌉ =
3074457345618258603` — the appended subtree differs from the claimed
recursive resolution. -/
theorem C3_cex :
    depTreeF id gBig 2 "T" 1 =
      DepRes.tree (NTree.mk (cbig1, 1)
        [NTree.mk (cbig2, 15372286728091293014) []]) ∧
    depTreeF id gBig 1 "A" (((2 ^ 63 * 1 : ℕ) : ℚ) / 1) =
      DepRes.tree (NTree.mk (cbig2, 3074457345618258603) []) ∧
    (15372286728091293014 : ℕ) ≠ 3074457345618258603 := by
  refine ⟨?_, ?_, by decide⟩
  · simp [depTreeF, leastWasteHeuristic, gBig, Hypergraph.getNode?, optMap,
      candOf, Recipe.rate, cbig1, cbig2, minBy, qcmp, rfract, rtrunc, u64ToI64,
      i64ToU64, i64Mul, Int.bmod, collectChildren]
    norm_num
    have h : ⌈-((9223372036854775808 : ℚ) / 3)⌉ =
        (-3074457345618258602 : ℤ) := by
      rw [Int.ceil_eq_iff]
      constructor
      · norm_num
      · norm_num
    rw [h]
    decide
  · simp [depTreeF, leastWasteHeuristic, gBig, Hypergraph.getNode?, optMap,
      candOf, Recipe.rate, cbig1, cbig2, minBy, qcmp, rfract, rtrunc, u64ToI64,
      i64ToU64, i64Mul, Int.bmod, collectChildren]
    norm_num
    have h : ⌈(9223372036854775808 : ℚ) / 3⌉ = (3074457345618258603 : ℤ) := by
      rw [Int.ceil_eq_iff]
      constructor
      · norm_num
      · norm_num
    rw [h]
    decide

/-- Witness instantiating `C3_child_rates` at the concrete producer
chain: one child per reagent, resolved at the exact rate `3 * 3 / 2`. -/
theorem C3_witness :
    (NTree.mk (cch1, 3) [NTree.mk (cch2, 5) []] : NTree (Recipe × ℕ)).data =
      (cch1, 3) ∧
    (NTree.mk (cch1, 3)
      [NTree.mk (cch2, 5) []] : NTree (Recipe × ℕ)).children.length =
      cch1.reagents.length ∧
    depTreeF id gChain 1 "A" (((3 * 3 : ℕ) : ℚ) / cch1.duration) =
      DepRes.tree (NTree.mk (cch2, 5) []) := by
  have hsel : leastWasteHeuristic id gChain "T" (3 / 2) =
      RustRes.ok (some (cch1, 3)) := by
    simp [leastWasteHeuristic, gChain, Hypergraph.getNode?, optMap, candOf,
      Recipe.rate, cch1, cch2, minBy, qcmp, rfract, rtrunc, u64ToI64, i64ToU64,
      Int.bmod]
  have ht : depTreeF id gChain 2 "T" (3 / 2) =
      DepRes.tree (NTree.mk (cch1, 3) [NTree.mk (cch2, 5) []]) := by
    simp [depTreeF, leastWasteHeuristic, gChain, Hypergraph.getNode?, optMap,
      candOf, Recipe.rate, cch1, cch2, minBy, qcmp, rfract, rtrunc, u64ToI64,
      i64ToU64, i64Mul, Int.bmod, collectChildren]
    norm_num
    have h : ⌈(9 : ℚ) / 2⌉ = (5 : ℤ) := by
      rw [Int.ceil_eq_iff]
      constructor
      · norm_num
      · norm_num
    rw [h]
    rfl
  obtain ⟨h1, h2, h3⟩ := C3_child_rates id (fun l => List.Perm.refl l) gChain
    1 "T" (3 / 2) cch1 3 (NTree.mk (cch1, 3) [NTree.mk (cch2, 5) []])
    hsel (by decide) ht
  obtain ⟨c, hc, hd⟩ := h3 0 ⟨"A", 3⟩ rfl
  have hceq : c = NTree.mk (cch2, 5) [] := by
    simpa [NTree.children] using hc.symm
  rw [hceq] at hd
  exact ⟨h1, h2, hd⟩

/-! ### C9 -/

/-- A children collection is fuel-exhausted only if some child is. -/
theorem collectChildren_ne_fuel :
    ∀ {l : List DepRes}, (∀ d ∈ l, d ≠ DepRes.fuel) →
      collectChildren l ≠ ForestRes.fuel := by
  intro l
  induction l with
  | nil => intro _h; simp [collectChildren]
  | cons d rest ih =>
      intro h
      cases d with
      | tree t0 =>
          simp only [collectChildren]
          cases hc : collectChildren rest with
          | trees ts => simp
          | panic => simp
          | fuel =>
              exact absurd hc
                (ih (fun x hx => h x (List.mem_cons_of_mem _ hx)))
      | panic => simp [collectChildren]
      | fuel => exact absurd rfl (h _ (List.mem_cons_self _ _))

/-- A `getNode?` hit exhibits a stored (key, node) pair. -/
theorem getNode?_mem {g : Hypergraph N E} {k : N} {nd : Hypernode}
    (h : g.getNode? k = some nd) : (k, nd) ∈ g.nodes := by
  unfold Hypergraph.getNode? at h
  cases hf : g.nodes.find? (fun p => decide (p.1 = k)) with
  | none => rw [hf] at h; simp at h
  | some p =>
      rw [hf] at h
      have hp2 : p.2 = nd := by simpa using h
      have hp1 : p.1 = k := by simpa using List.find?_some hf
      have hpm := List.mem_of_find?_eq_some hf
      have hpe : p = (k, nd) := by
        cases p
        simp only at hp1 hp2
        rw [hp1, hp2]
      rw [← hpe]
      exact hpm

/-- Stability and termination of the fuel-indexed `dep_tree` under an
acyclicity rank: with fuel above the target's rank the result no longer
depends on the fuel, and is never fuel exhaustion. -/
theorem depTreeF_stable (ρ : List ℕ → List ℕ) (hρ : ∀ l, (ρ l).Perm l)
    (g : Hypergraph String Recipe) (rk : String → ℕ)
    (hrk : ∀ p ∈ g.nodes, ∀ i ∈ (p.2 : Hypernode).neighbor_of, ∀ e,
      g.edges[i]? = some e → ∀ rg ∈ e.weight.reagents,
        rk rg.widget < rk (p.1 : String)) :
    ∀ (fuel : ℕ) (wdg : String) (req : ℚ), rk wdg < fuel →
      depTreeF ρ g fuel wdg req = depTreeF ρ g (rk wdg + 1) wdg req ∧
      depTreeF ρ g fuel wdg req ≠ DepRes.fuel := by
  intro fuel
  induction fuel using Nat.strong_induction_on with
  | _ fuel ih =>
      intro wdg req hfuel
      obtain ⟨n, rfl⟩ : ∃ n, fuel = n + 1 := ⟨fuel - 1, by omega⟩
      have hrkn : rk wdg ≤ n := by omega
      cases hsel : leastWasteHeuristic ρ g wdg req with
      | err e => constructor <;> simp [depTreeF, hsel]
      | panic => constructor <;> simp [depTreeF, hsel]
      | ok o =>
          cases o with
          | none => constructor <;> simp [depTreeF, hsel]
          | some pr =>
              obtain ⟨r, m⟩ := pr
              obtain ⟨nd, hnd, ⟨i, hi, e, hedge, hew⟩, rr, hrate, hrr0, hm,
                hmin⟩ := leastWasteHeuristic_sound ρ hρ g wdg req r m hsel
              have hp : (wdg, nd) ∈ g.nodes := getNode?_mem hnd
              have hchild : ∀ rg ∈ r.reagents, rk rg.widget < rk wdg := by
                intro rg hrg
                have hrg' : rg ∈ e.weight.reagents := by rw [hew]; exact hrg
                exact hrk (wdg, nd) hp i hi e hedge rg hrg'
              have hmapL : r.reagents.map (fun rg =>
                  if r.duration = 0 then DepRes.panic
                  else depTreeF ρ g n rg.widget
                    ((i64Mul (u64ToI64 rg.quantity) (u64ToI64 m) : ℚ) /
                      r.duration)) =
                r.reagents.map (fun rg =>
                  if r.duration = 0 then DepRes.panic
                  else depTreeF ρ g (rk rg.widget + 1) rg.widget
                    ((i64Mul (u64ToI64 rg.quantity) (u64ToI64 m) : ℚ) /
                      r.duration)) := by
                refine List.map_congr_left ?_
                intro rg hrg
                by_cases hd : r.duration = 0
                · rw [if_pos hd, if_pos hd]
                · rw [if_neg hd, if_neg hd]
                  have hlt : rk rg.widget < n :=
                    lt_of_lt_of_le (hchild rg hrg) hrkn
                  exact (ih n (by omega) rg.widget _ hlt).1
              have hmapR : r.reagents.map (fun rg =>
                  if r.duration = 0 then DepRes.panic
                  else depTreeF ρ g (rk wdg) rg.widget
                    ((i64Mul (u64ToI64 rg.quantity) (u64ToI64 m) : ℚ) /
                      r.duration)) =
                r.reagents.map (fun rg =>
                  if r.duration = 0 then DepRes.panic
                  else depTreeF ρ g (rk rg.widget + 1) rg.widget
                    ((i64Mul (u64ToI64 rg.quantity) (u64ToI64 m) : ℚ) /
                      r.duration)) := by
                refine List.map_congr_left ?_
                intro rg hrg
                by_cases hd : r.duration = 0
                · rw [if_pos hd, if_pos hd]
                · rw [if_neg hd, if_neg hd]
                  exact (ih (rk wdg) (by omega) rg.widget _ (hchild rg hrg)).1
              constructor
              · simp only [depTreeF, hsel]
                rw [hmapL, hmapR]
              · simp only [depTreeF, hsel]
                have hnofuel : ∀ d ∈ r.reagents.map (fun rg =>
                    if r.duration = 0 then DepRes.panic
                    else depTreeF ρ g n rg.widget
                      ((i64Mul (u64ToI64 rg.quantity) (u64ToI64 m) : ℚ) /
                        r.duration)), d ≠ DepRes.fuel := by
                  intro d hd
                  obtain ⟨rg, hrg, hdd⟩ := List.mem_map.mp hd
                  rw [← hdd]
                  by_cases hdur : r.duration = 0
                  · rw [if_pos hdur]
                    simp
                  · rw [if_neg hdur]
                    have hlt : rk rg.widget < n :=
                      lt_of_lt_of_le (hchild rg hrg) hrkn
                    exact (ih n (by omega) rg.widget _ hlt).2
                have hne := collectChildren_ne_fuel hnofuel
                cases hcc : collectChildren (r.reagents.map (fun rg =>
                    if r.duration = 0 then DepRes.panic
                    else depTreeF ρ g n rg.widget
                      ((i64Mul (u64ToI64 rg.quantity) (u64ToI64 m) : ℚ) /
                        r.duration))) with
                | trees ts => simp
                | panic => simp
                | fuel => exact absurd hcc hne

/-- The selection count of a successful children list is the total node
count of the collected trees. -/
theorem countChildren_size :
    ∀ (l : List (DepRes × ℕ)) (ts : List (NTree (Recipe × ℕ))),
      collectChildren (l.map Prod.fst) = ForestRes.trees ts →
      (∀ pr ∈ l, ∀ t', (pr : DepRes × ℕ).1 = DepRes.tree t' →
        pr.2 = NTree.size t') →
      countChildren l = NTree.sizeList ts := by
  intro l
  induction l with
  | nil =>
      intro ts h _hpt
      simp only [List.map_nil, collectChildren, ForestRes.trees.injEq] at h
      subst h
      rfl
  | cons pr rest ih =>
      intro ts h hpt
      obtain ⟨d, c⟩ := pr
      cases d with
      | tree t0 =>
          simp only [List.map_cons, collectChildren] at h
          cases hc : collectChildren (rest.map Prod.fst) with
          | trees ts' =>
              rw [hc] at h
              simp only [ForestRes.trees.injEq] at h
              subst h
              have hc0 : c = NTree.size t0 :=
                hpt (DepRes.tree t0, c) (List.mem_cons_self _ _) t0 rfl
              have hrest := ih ts' hc
                (fun q hq => hpt q (List.mem_cons_of_mem _ hq))
              show c + countChildren rest = NTree.sizeList (t0 :: ts')
              rw [hc0, hrest]
              rfl
          | panic => rw [hc] at h; simp at h
          | fuel => rw [hc] at h; simp at h
      | panic => simp [collectChildren] at h
      | fuel => simp [collectChildren] at h

/-- On success, `dep_tree` performs exactly one heuristic selection per
node of the resulting dependency tree. -/
theorem selCountF_size (ρ : List ℕ → List ℕ) (g : Hypergraph String Recipe) :
    ∀ (fuel : ℕ) (wdg : String) (req : ℚ) (t : NTree (Recipe × ℕ)),
      depTreeF ρ g fuel wdg req = DepRes.tree t →
      selCountF ρ g fuel wdg req = NTree.size t := by
  intro fuel
  induction fuel with
  | zero => intro w req t h; simp [depTreeF] at h
  | succ n ih =>
      intro w req t h
      cases hsel : leastWasteHeuristic ρ g w req with
      | err e => simp only [depTreeF, hsel] at h; simp at h
      | panic => simp only [depTreeF, hsel] at h; simp at h
      | ok o =>
          cases o with
          | none => simp only [depTreeF, hsel] at h; simp at h
          | some pr =>
              obtain ⟨r, m⟩ := pr
              simp only [depTreeF, hsel] at h
              cases hcc : collectChildren (r.reagents.map (fun rg =>
                  if r.duration = 0 then DepRes.panic
                  else depTreeF ρ g n rg.widget
                    ((i64Mul (u64ToI64 rg.quantity) (u64ToI64 m) : ℚ) /
                      r.duration))) with
              | panic => rw [hcc] at h; simp at h
              | fuel => rw [hcc] at h; simp at h
              | trees ts =>
                  rw [hcc] at h
                  simp only [DepRes.tree.injEq] at h
                  subst h
                  simp only [selCountF, hsel]
                  have hfst : (r.reagents.map (fun rg =>
                      if r.duration = 0 then (DepRes.panic, 0)
                      else
                        (depTreeF ρ g n rg.widget
                          ((i64Mul (u64ToI64 rg.quantity) (u64ToI64 m) : ℚ) /
                            r.duration),
                         selCountF ρ g n rg.widget
                          ((i64Mul (u64ToI64 rg.quantity) (u64ToI64 m) : ℚ) /
                            r.duration)))).map Prod.fst =
                    r.reagents.map (fun rg =>
                      if r.duration = 0 then DepRes.panic
                      else depTreeF ρ g n rg.widget
                        ((i64Mul (u64ToI64 rg.quantity) (u64ToI64 m) : ℚ) /
                          r.duration)) := by
                    rw [List.map_map]
                    refine List.map_congr_left ?_
                    intro rg _hrg
                    by_cases hd : r.duration = 0 <;> simp [hd]
                  have hcnt := countChildren_size _ ts (by rw [hfst]; exact hcc)
                    ?_
                  · rw [hcnt]
                    rfl
                  · intro q hq t' hqt
                    obtain ⟨rg, hrg, hqq⟩ := List.mem_map.mp hq
                    rw [← hqq] at hqt ⊢
                    by_cases hd : r.duration = 0
                    · rw [if_pos hd] at hqt
                      simp at hqt
                    · rw [if_neg hd] at hqt ⊢
                      simp only at hqt ⊢
                      exact ih rg.widget _ t' hqt

/-- C9 (amended): for every graph whose adjacency-induced producer
relation admits a rank function (every reagent of every incoming edge of
a stored key ranks strictly below that key — acyclicity), `resolve`
terminates: above the target's rank, the fuel-indexed `dep_tree` is
independent of the fuel and never exhausts it.  Moreover it performs
exactly one candidate selection per node of the resulting dependency
tree — not one per reachable edge: a shared producer is selected once
per occurrence in the tree (see the counterexample). -/
theorem C9_termination_and_count (ρ : List ℕ → List ℕ)
    (hρ : ∀ l, (ρ l).Perm l) (g : Hypergraph String Recipe)
    (rk : String → ℕ)
    (hrk : ∀ p ∈ g.nodes, ∀ i ∈ (p.2 : Hypernode).neighbor_of, ∀ e,
      g.edges[i]? = some e → ∀ rg ∈ e.weight.reagents,
        rk rg.widget < rk (p.1 : String)) :
    (∀ (fuel : ℕ) (wdg : String) (req : ℚ), rk wdg < fuel →
      depTreeF ρ g fuel wdg req = depTreeF ρ g (rk wdg + 1) wdg req ∧
      depTreeF ρ g fuel wdg req ≠ DepRes.fuel) ∧
    (∀ (fuel : ℕ) (wdg : String) (req : ℚ) (t : NTree (Recipe × ℕ)),
      depTreeF ρ g fuel wdg req = DepRes.tree t →
      selCountF ρ g fuel wdg req = NTree.size t) :=
  ⟨depTreeF_stable ρ hρ g rk hrk, selCountF_size ρ g⟩

/-- C9, the claim as stated, refuted at a concrete input: on the acyclic
diamond (4 edges, all reachable from `T`), resolution terminates with a
5-node tree and performs 5 selections — one per tree node — not one per
reachable edge (4): `C`'s producer is selected once under `A` and once
under `B`. -/
theorem C9_cex :
    depTreeF id gDia 5 "T" 1 = DepRes.tree tDia ∧
    selCountF id gDia 5 "T" 1 = 5 ∧
    (reachableEdges gDia 5 "T").card = 4 ∧ (5 : ℕ) ≠ 4 := by
  refine ⟨?_, ?_, by decide, by decide⟩
  · simp [depTreeF, leastWasteHeuristic, gDia, Hypergraph.getNode?, optMap,
      candOf, Recipe.rate, dT, dA, dB, dC, minBy, qcmp, rfract, rtrunc,
      u64ToI64, i64ToU64, i64Mul, Int.bmod, collectChildren, tDia]
  · simp [selCountF, depTreeF, leastWasteHeuristic, gDia, Hypergraph.getNode?,
      optMap, candOf, Recipe.rate, dT, dA, dB, dC, minBy, qcmp, rfract, rtrunc,
      u64ToI64, i64ToU64, i64Mul, Int.bmod, collectChildren, countChildren]

/-- Witness instantiating `C9_termination_and_count` on the diamond with
its concrete rank function. -/
theorem C9_witness :
    depTreeF id gDia 5 "T" 1 = depTreeF id gDia (rkDia "T" + 1) "T" 1 ∧
    depTreeF id gDia 5 "T" 1 ≠ DepRes.fuel ∧
    selCountF id gDia 5 "T" 1 = NTree.size tDia := by
  obtain ⟨hterm, hcnt⟩ := C9_termination_and_count id
    (fun l => List.Perm.refl l) gDia rkDia (by decide)
  obtain ⟨hstab, hnf⟩ := hterm 5 "T" 1 (by decide)
  refine ⟨hstab, hnf, hcnt 5 "T" 1 tDia ?_⟩
  simp [depTreeF, leastWasteHeuristic, gDia, Hypergraph.getNode?, optMap,
    candOf, Recipe.rate, dT, dA, dB, dC, minBy, qcmp, rfract, rtrunc,
    u64ToI64, i64ToU64, i64Mul, Int.bmod, collectChildren, tDia]

/-! ### C8 and C10: the adjacency-exactness invariant -/

theorem mem_edgesWithSource {g : Hypergraph N E} {i j : ℕ} :
    i ∈ edgesWithSource g j ↔ ∃ e, g.edges[i]? = some e ∧ j ∈ e.src := by
  unfold edgesWithSource
  rw [List.mem_toFinset, List.mem_filterMap]
  constructor
  · rintro ⟨⟨i', e⟩, hmem, hif⟩
    rw [List.mem_enum_iff_getElem?] at hmem
    by_cases hj : j ∈ e.src
    · rw [if_pos hj] at hif
      simp only [Option.some.injEq] at hif
      subst hif
      exact ⟨e, hmem, hj⟩
    · rw [if_neg hj] at hif
      exact absurd hif (Option.noConfusion)
  · rintro ⟨e, he, hj⟩
    refine ⟨(i, e), ?_, by rw [if_pos hj]⟩
    rw [List.mem_enum_iff_getElem?]
    exact he

theorem mem_edgesWithDest {g : Hypergraph N E} {i j : ℕ} :
    i ∈ edgesWithDest g j ↔ ∃ e, g.edges[i]? = some e ∧ j ∈ e.dst := by
  unfold edgesWithDest
  rw [List.mem_toFinset, List.mem_filterMap]
  constructor
  · rintro ⟨⟨i', e⟩, hmem, hif⟩
    rw [List.mem_enum_iff_getElem?] at hmem
    by_cases hj : j ∈ e.dst
    · rw [if_pos hj] at hif
      simp only [Option.some.injEq] at hif
      subst hif
      exact ⟨e, hmem, hj⟩
    · rw [if_neg hj] at hif
      exact absurd hif (Option.noConfusion)
  · rintro ⟨e, he, hj⟩
    refine ⟨(i, e), ?_, by rw [if_pos hj]⟩
    rw [List.mem_enum_iff_getElem?]
    exact he

/-- The invariant maintained by fresh builds: keys are pairwise distinct,
every stored edge endpoint is a valid node index, and every node's
adjacency lists are exactly the edges listing its index. -/
structure WF (g : Hypergraph N E) : Prop where
  keys_nodup : (g.nodes.map Prod.fst).Nodup
  edge_src_lt : ∀ e ∈ g.edges, ∀ j ∈ (e : Hyperedge E).src, j < g.order
  edge_dst_lt : ∀ e ∈ g.edges, ∀ j ∈ (e : Hyperedge E).dst, j < g.order
  adj_out : ∀ (j : ℕ) (k : N) (nd : Hypernode), g.nodes[j]? = some (k, nd) →
    nd.neighbors.toFinset = edgesWithSource g j
  adj_in : ∀ (j : ℕ) (k : N) (nd : Hypernode), g.nodes[j]? = some (k, nd) →
    nd.neighbor_of.toFinset = edgesWithDest g j

theorem nodeIndex_lt {g : Hypergraph N E} {k : N} {j : ℕ}
    (h : g.nodeIndex k = some j) : j < g.order := by
  unfold Hypergraph.nodeIndex at h
  obtain ⟨hlt, _, _⟩ := List.findIdx?_eq_some_iff_getElem.mp h
  exact hlt

theorem nodeIndex_getElem {g : Hypergraph N E} {k : N} {j : ℕ}
    (h : g.nodeIndex k = some j) : ∃ nd, g.nodes[j]? = some (k, nd) := by
  unfold Hypergraph.nodeIndex at h
  obtain ⟨hlt, hkey, _⟩ := List.findIdx?_eq_some_iff_getElem.mp h
  simp only [decide_eq_true_eq] at hkey
  refine ⟨(g.nodes[j]).2, ?_⟩
  rw [List.getElem?_eq_getElem hlt]
  congr 1
  cases hg : g.nodes[j]
  simp only at hkey ⊢
  rw [hg] at hkey
  rw [← hkey]

theorem getElem_nodeIndex {g : Hypergraph N E}
    (hnodup : (g.nodes.map Prod.fst).Nodup) {k : N} {j : ℕ} {nd : Hypernode}
    (h : g.nodes[j]? = some (k, nd)) : g.nodeIndex k = some j := by
  have hlt : j < g.nodes.length := by
    by_contra hge
    rw [List.getElem?_eq_none (Nat.le_of_not_lt hge)] at h
    exact Option.noConfusion h
  have hj : g.nodes[j] = (k, nd) := by
    have := List.getElem?_eq_getElem hlt
    rw [h] at this
    exact (Option.some.inj this).symm
  unfold Hypergraph.nodeIndex
  rw [List.findIdx?_eq_some_iff_getElem]
  refine ⟨hlt, by simp [hj], ?_⟩
  intro j' hj'
  simp only [decide_eq_true_eq]
  intro hkey
  have hlt' : j' < g.nodes.length := lt_trans hj' hlt
  have hmlt : j < (g.nodes.map Prod.fst).length := by
    rw [List.length_map]
    exact hlt
  have hmlt' : j' < (g.nodes.map Prod.fst).length := by
    rw [List.length_map]
    exact hlt'
  have hmap : (g.nodes.map Prod.fst)[j'] = (g.nodes.map Prod.fst)[j] := by
    rw [List.getElem_map, List.getElem_map, hkey, hj]
  have := (List.Nodup.getElem_inj_iff hnodup).mp hmap
  omega

theorem getNode?_of_getElem {g : Hypergraph N E}
    (hnodup : (g.nodes.map Prod.fst).Nodup) {k : N} {j : ℕ} {nd : Hypernode}
    (h : g.nodes[j]? = some (k, nd)) : g.getNode? k = some nd := by
  have hidx := getElem_nodeIndex hnodup h
  unfold Hypergraph.nodeIndex at hidx
  obtain ⟨hlt, hkey, hbef⟩ := List.findIdx?_eq_some_iff_getElem.mp hidx
  unfold Hypergraph.getNode?
  have hfind : g.nodes.find? (fun p => decide (p.1 = k)) = some (k, nd) := by
    have hj : g.nodes[j] = (k, nd) := by
      have := List.getElem?_eq_getElem hlt
      rw [h] at this
      exact (Option.some.inj this).symm
    rw [List.find?_eq_some]
    refine ⟨by simp, g.nodes.take j, g.nodes.drop (j + 1), ?_, ?_⟩
    · conv in g.nodes => rw [← List.take_append_drop j g.nodes]
      rw [List.drop_eq_getElem_cons hlt, hj]
    · intro a ha
      obtain ⟨n, hn, hna⟩ := List.getElem_of_mem ha
      have hnj : n < j := by
        have := List.length_take_le j g.nodes
        have h2 : (g.nodes.take j).length = min j g.nodes.length :=
          List.length_take j g.nodes
        omega
      have := hbef n hnj
      simp only [decide_eq_true_eq] at this
      rw [List.getElem_take] at hna
      simp only [Bool.not_eq_true']
      simp only [decide_eq_false_iff_not]
      rw [← hna]
      exact this
  rw [hfind]
  rfl

theorem Hypergraph.eq_of {g1 g2 : Hypergraph N E} (hn : g1.nodes = g2.nodes)
    (he : g1.edges = g2.edges) : g1 = g2 := by
  cases g1
  cases g2
  simp only at hn he
  rw [hn, he]

/-- Effect of the source loop of `insert_edge` on the node store. -/
theorem foldl_addOut_nodes :
    ∀ (ss : List N) (g : Hypergraph N E) (i : ℕ),
      (ss.foldl (fun h k => h.addOut k i) g).nodes =
        g.nodes.map (fun p =>
          if p.1 ∈ ss then
            (p.1, { p.2 with neighbors := p.2.neighbors.insert i })
          else p) := by
  intro ss
  induction ss with
  | nil =>
      intro g i
      simp
  | cons k ss ih =>
      intro g i
      rw [List.foldl_cons, ih]
      show (g.nodes.map (fun p =>
          if p.1 = k then (p.1, { p.2 with neighbors := p.2.neighbors.insert i })
          else p)).map _ = _
      rw [List.map_map]
      refine List.map_congr_left ?_
      intro p _hp
      simp only [Function.comp]
      by_cases h1 : p.1 = k
      · have hmem : p.1 ∈ k :: ss := by simp [h1]
        by_cases h2 : p.1 ∈ ss
        · simp only [if_pos h1, if_pos h2, if_pos hmem]
          rw [List.insert_of_mem (List.mem_insert_self i _)]
        · simp only [if_pos h1, if_pos hmem, if_neg h2]
      · by_cases h2 : p.1 ∈ ss
        · have hmem : p.1 ∈ k :: ss := List.mem_cons_of_mem _ h2
          simp only [if_neg h1, if_pos h2, if_pos hmem]
        · have hmem : p.1 ∉ k :: ss := by simp [h1, h2]
          simp only [if_neg h1, if_neg h2, if_neg hmem]

/-- Effect of the destination loop of `insert_edge` on the node store. -/
theorem foldl_addIn_nodes :
    ∀ (ds : List N) (g : Hypergraph N E) (i : ℕ),
      (ds.foldl (fun h k => h.addIn k i) g).nodes =
        g.nodes.map (fun p =>
          if p.1 ∈ ds then
            (p.1, { p.2 with neighbor_of := p.2.neighbor_of.insert i })
          else p) := by
  intro ds
  induction ds with
  | nil =>
      intro g i
      simp
  | cons k ds ih =>
      intro g i
      rw [List.foldl_cons, ih]
      show (g.nodes.map (fun p =>
          if p.1 = k then
            (p.1, { p.2 with neighbor_of := p.2.neighbor_of.insert i })
          else p)).map _ = _
      rw [List.map_map]
      refine List.map_congr_left ?_
      intro p _hp
      simp only [Function.comp]
      by_cases h1 : p.1 = k
      · have hmem : p.1 ∈ k :: ds := by simp [h1]
        by_cases h2 : p.1 ∈ ds
        · simp only [if_pos h1, if_pos h2, if_pos hmem]
          rw [List.insert_of_mem (List.mem_insert_self i _)]
        · simp only [if_pos h1, if_pos hmem, if_neg h2]
      · by_cases h2 : p.1 ∈ ds
        · have hmem : p.1 ∈ k :: ds := List.mem_cons_of_mem _ h2
          simp only [if_neg h1, if_pos h2, if_pos hmem]
        · have hmem : p.1 ∉ k :: ds := by simp [h1, h2]
          simp only [if_neg h1, if_neg h2, if_neg hmem]

/-- The source loop is a no-op when every listed key already stores the
index. -/
theorem foldl_addOut_noop (ss : List N) (g : Hypergraph N E) (i : ℕ)
    (h : ∀ p ∈ g.nodes, (p : N × Hypernode).1 ∈ ss → i ∈ p.2.neighbors) :
    ss.foldl (fun h k => h.addOut k i) g = g := by
  refine Hypergraph.eq_of ?_ (foldl_addOut_edges ss g i)
  rw [foldl_addOut_nodes]
  conv_rhs => rw [← List.map_id g.nodes]
  refine List.map_congr_left ?_
  intro p hp
  by_cases hmem : p.1 ∈ ss
  · rw [if_pos hmem, List.insert_of_mem (h p hp hmem)]
    rfl
  · rw [if_neg hmem]
    rfl

/-- The destination loop is a no-op when every listed key already stores
the index. -/
theorem foldl_addIn_noop (ds : List N) (g : Hypergraph N E) (i : ℕ)
    (h : ∀ p ∈ g.nodes, (p : N × Hypernode).1 ∈ ds → i ∈ p.2.neighbor_of) :
    ds.foldl (fun h k => h.addIn k i) g = g := by
  refine Hypergraph.eq_of ?_ (foldl_addIn_edges ds g i)
  rw [foldl_addIn_nodes]
  conv_rhs => rw [← List.map_id g.nodes]
  refine List.map_congr_left ?_
  intro p hp
  by_cases hmem : p.1 ∈ ds
  · rw [if_pos hmem, List.insert_of_mem (h p hp hmem)]
    rfl
  · rw [if_neg hmem]
    rfl

/-- On a well-formed graph, inserting an edge whose shape is already
stored changes nothing at all: the whole graph state is returned
unchanged together with the stored index. -/
theorem insert_edge_dup_noop (g : Hypergraph N E) (hWF : WF g)
    (ss ds : List N) (w : E) (si di : List ℕ) (i : ℕ)
    (hss : g.mapIdx? ss = some si) (hds : g.mapIdx? ds = some di)
    (hfound : g.edges.findIdx?
      (fun e => decide (e.src = si.toFinset ∧ e.dst = di.toFinset)) =
        some i) :
    g.insert_edge ss ds w = RustRes.ok (g, i) := by
  rw [insert_edge_dup_eq g ss ds w si di i hss hds hfound]
  obtain ⟨hilt, hpred, _⟩ := List.findIdx?_eq_some_iff_getElem.mp hfound
  simp only [decide_eq_true_eq] at hpred
  obtain ⟨hsrc, hdst⟩ := hpred
  have hout : ∀ p ∈ g.nodes, (p : N × Hypernode).1 ∈ ss →
      i ∈ p.2.neighbors := by
    intro p hp hpss
    obtain ⟨j, hjlt, hj⟩ := List.getElem_of_mem hp
    have hj2 : g.nodes[j]? = some (p.1, p.2) := by
      rw [List.getElem?_eq_getElem hjlt, hj]
    have hadj := hWF.adj_out j p.1 p.2 hj2
    obtain ⟨jj, _hjj_mem, hjj⟩ := optMap_forall hss p.1 hpss
    have hidx := getElem_nodeIndex hWF.keys_nodup hj2
    rw [hidx] at hjj
    have hjje : jj = j := (Option.some.inj hjj).symm
    subst hjje
    have hjsrc : jj ∈ (g.edges[i]).src := by
      rw [hsrc]
      exact List.mem_toFinset.mpr _hjj_mem
    have hmem : i ∈ edgesWithSource g jj :=
      mem_edgesWithSource.mpr
        ⟨g.edges[i], List.getElem?_eq_getElem hilt, hjsrc⟩
    rw [← hadj] at hmem
    exact List.mem_toFinset.mp hmem
  have hin : ∀ p ∈ g.nodes, (p : N × Hypernode).1 ∈ ds →
      i ∈ p.2.neighbor_of := by
    intro p hp hpds
    obtain ⟨j, hjlt, hj⟩ := List.getElem_of_mem hp
    have hj2 : g.nodes[j]? = some (p.1, p.2) := by
      rw [List.getElem?_eq_getElem hjlt, hj]
    have hadj := hWF.adj_in j p.1 p.2 hj2
    obtain ⟨jj, _hjj_mem, hjj⟩ := optMap_forall hds p.1 hpds
    have hidx := getElem_nodeIndex hWF.keys_nodup hj2
    rw [hidx] at hjj
    have hjje : jj = j := (Option.some.inj hjj).symm
    subst hjje
    have hjdst : jj ∈ (g.edges[i]).dst := by
      rw [hdst]
      exact List.mem_toFinset.mpr _hjj_mem
    have hmem : i ∈ edgesWithDest g jj :=
      mem_edgesWithDest.mpr
        ⟨g.edges[i], List.getElem?_eq_getElem hilt, hjdst⟩
    rw [← hadj] at hmem
    exact List.mem_toFinset.mp hmem
  rw [foldl_addOut_noop ss g i hout, foldl_addIn_noop ds g i hin]

/-- `List.toFinset` after a `List.insert` is a `Finset.insert`. -/
theorem toFinset_insert_eq (l : List ℕ) (a : ℕ) :
    (l.insert a).toFinset = insert a l.toFinset := by
  ext x
  simp [List.mem_insert_iff]

/-- Lookup in a list extended by one element. -/
theorem getElem?_append_single {α : Type} (l : List α) (a : α) (x : ℕ) :
    (l ++ [a])[x]? = if x = l.length then some a else l[x]? := by
  by_cases hx : x = l.length
  · subst hx
    rw [if_pos rfl]
    exact List.getElem?_concat_length l a
  · rw [if_neg hx, List.getElem?_append]
    by_cases hlt : x < l.length
    · rw [if_pos hlt]
    · rw [if_neg hlt]
      have h1 : ([a] : List α)[x - l.length]? = none :=
        List.getElem?_eq_none (by simp; omega)
      have h2 : l[x]? = none := List.getElem?_eq_none (by omega)
      rw [h1, h2]

/-- `edgesWithSource` depends only on the edge arena. -/
theorem edgesWithSource_congr {g1 g2 : Hypergraph N E}
    (he : g1.edges = g2.edges) (j : ℕ) :
    edgesWithSource g1 j = edgesWithSource g2 j := by
  unfold edgesWithSource
  rw [he]

/-- `edgesWithDest` depends only on the edge arena. -/
theorem edgesWithDest_congr {g1 g2 : Hypergraph N E}
    (he : g1.edges = g2.edges) (j : ℕ) :
    edgesWithDest g1 j = edgesWithDest g2 j := by
  unfold edgesWithDest
  rw [he]

/-- Appending one edge extends `edgesWithSource` with the new index at
exactly the listed source endpoints. -/
theorem edgesWithSource_append (g : Hypergraph N E) (e : Hyperedge E) (j : ℕ) :
    edgesWithSource { g with edges := g.edges ++ [e] } j =
      if j ∈ e.src then insert g.edges.length (edgesWithSource g j)
      else edgesWithSource g j := by
  ext x
  have h1 : x ∈ edgesWithSource { g with edges := g.edges ++ [e] } j ↔
      ∃ e2, (g.edges ++ [e])[x]? = some e2 ∧ j ∈ e2.src := mem_edgesWithSource
  rw [h1, getElem?_append_single]
  by_cases hx : x = g.edges.length
  · rw [if_pos hx]
    by_cases hj : j ∈ e.src
    · rw [if_pos hj, Finset.mem_insert]
      constructor
      · intro _
        left
        exact hx
      · intro _
        exact ⟨e, rfl, hj⟩
    · rw [if_neg hj, mem_edgesWithSource]
      constructor
      · rintro ⟨e2, he2, hj2⟩
        rw [← Option.some.inj he2] at hj2
        exact absurd hj2 hj
      · rintro ⟨e2, he2, hj2⟩
        rw [hx, List.getElem?_eq_none (le_refl _)] at he2
        exact absurd he2 (by simp)
  · rw [if_neg hx, ← mem_edgesWithSource]
    by_cases hj : j ∈ e.src
    · rw [if_pos hj, Finset.mem_insert]
      constructor
      · intro h
        right
        exact h
      · rintro (h | h)
        · exact absurd h hx
        · exact h
    · rw [if_neg hj]

/-- Appending one edge extends `edgesWithDest` with the new index at
exactly the listed destination endpoints. -/
theorem edgesWithDest_append (g : Hypergraph N E) (e : Hyperedge E) (j : ℕ) :
    edgesWithDest { g with edges := g.edges ++ [e] } j =
      if j ∈ e.dst then insert g.edges.length (edgesWithDest g j)
      else edgesWithDest g j := by
  ext x
  have h1 : x ∈ edgesWithDest { g with edges := g.edges ++ [e] } j ↔
      ∃ e2, (g.edges ++ [e])[x]? = some e2 ∧ j ∈ e2.dst := mem_edgesWithDest
  rw [h1, getElem?_append_single]
  by_cases hx : x = g.edges.length
  · rw [if_pos hx]
    by_cases hj : j ∈ e.dst
    · rw [if_pos hj, Finset.mem_insert]
      constructor
      · intro _
        left
        exact hx
      · intro _
        exact ⟨e, rfl, hj⟩
    · rw [if_neg hj, mem_edgesWithDest]
      constructor
      · rintro ⟨e2, he2, hj2⟩
        rw [← Option.some.inj he2] at hj2
        exact absurd hj2 hj
      · rintro ⟨e2, he2, hj2⟩
        rw [hx, List.getElem?_eq_none (le_refl _)] at he2
        exact absurd he2 (by simp)
  · rw [if_neg hx, ← mem_edgesWithDest]
    by_cases hj : j ∈ e.dst
    · rw [if_pos hj, Finset.mem_insert]
      constructor
      · intro h
        right
        exact h
      · rintro (h | h)
        · exact absurd h hx
        · exact h
    · rw [if_neg hj]

/-- Under distinct keys, a key listed in `ks` corresponds exactly to its
node index appearing in the resolved index list. -/
theorem mem_iff_index_mem {g : Hypergraph N E}
    (hnodup : (g.nodes.map Prod.fst).Nodup) {ks : List N} {is : List ℕ}
    (hks : g.mapIdx? ks = some is) {k : N} {j : ℕ} {nd : Hypernode}
    (hj : g.nodes[j]? = some (k, nd)) : k ∈ ks ↔ j ∈ is := by
  constructor
  · intro hk
    obtain ⟨b, hb, hfb⟩ := optMap_forall hks k hk
    rw [getElem_nodeIndex hnodup hj] at hfb
    have hjb : j = b := Option.some.inj hfb
    rw [hjb]
    exact hb
  · intro hjm
    obtain ⟨a, ha, hfa⟩ := optMap_mem_of hks j hjm
    obtain ⟨nd2, hnd2⟩ := nodeIndex_getElem hfa
    rw [hj] at hnd2
    have hpair := Option.some.inj hnd2
    have hk : k = a := congrArg Prod.fst hpair
    rw [hk]
    exact ha

/-- The empty graph is well-formed. -/
theorem WF_new : WF (Hypergraph.new : Hypergraph N E) := by
  refine ⟨?_, ?_, ?_, ?_, ?_⟩
  · simp [Hypergraph.new]
  · intro e he
    simp [Hypergraph.new] at he
  · intro e he
    simp [Hypergraph.new] at he
  · intro j k nd h
    simp [Hypergraph.new] at h
  · intro j k nd h
    simp [Hypergraph.new] at h

/-- `insert_node` with a fresh key preserves well-formedness. -/
theorem WF_insert_node_fresh (g : Hypergraph N E) (hWF : WF g) (k : N)
    (hfresh : g.nodeIndex k = none) : WF (g.insert_node k).1 := by
  have hnot : ∀ p ∈ g.nodes, ¬((p : N × Hypernode).1 = k) := by
    intro p hp
    have := List.findIdx?_eq_none_iff.mp hfresh p hp
    simpa using this
  have hg : (g.insert_node k).1 =
      { g with nodes := g.nodes ++ [(k, Hypernode.new)] } := by
    unfold Hypergraph.insert_node
    rw [show g.nodes.findIdx? (fun p => decide (p.1 = k)) = none from hfresh]
  rw [hg]
  refine ⟨?_, ?_, ?_, ?_, ?_⟩
  · show ((g.nodes ++ [(k, Hypernode.new)]).map Prod.fst).Nodup
    rw [List.map_append, List.nodup_append]
    refine ⟨hWF.keys_nodup, by simp, ?_⟩
    intro x hx hx2
    have hxk : x = k := by simpa using hx2
    obtain ⟨p, hp, hpx⟩ := List.mem_map.mp hx
    exact hnot p hp (hpx.trans hxk)
  · intro e he j hj
    have h1 := hWF.edge_src_lt e he j hj
    unfold Hypergraph.order at h1
    show j < (g.nodes ++ [(k, Hypernode.new)]).length
    simp only [List.length_append, List.length_singleton]
    omega
  · intro e he j hj
    have h1 := hWF.edge_dst_lt e he j hj
    unfold Hypergraph.order at h1
    show j < (g.nodes ++ [(k, Hypernode.new)]).length
    simp only [List.length_append, List.length_singleton]
    omega
  · intro j k2 nd hjn
    have hjn2 : (g.nodes ++ [(k, Hypernode.new)])[j]? = some (k2, nd) := hjn
    rw [getElem?_append_single] at hjn2
    have hcongr : edgesWithSource
        { g with nodes := g.nodes ++ [(k, Hypernode.new)] } j =
          edgesWithSource g j := edgesWithSource_congr rfl j
    by_cases hx : j = g.nodes.length
    · rw [if_pos hx] at hjn2
      have hpair := Option.some.inj hjn2
      have hnd : nd = Hypernode.new := (congrArg Prod.snd hpair).symm
      subst hnd
      have hnone : edgesWithSource g j = ∅ := by
        rw [Finset.eq_empty_iff_forall_not_mem]
        intro x hxm
        rw [mem_edgesWithSource] at hxm
        obtain ⟨e, he, hje⟩ := hxm
        have hmem : e ∈ g.edges := List.getElem?_mem he
        have := hWF.edge_src_lt e hmem j hje
        unfold Hypergraph.order at this
        omega
      rw [hcongr, hnone]
      simp [Hypernode.new]
    · rw [if_neg hx] at hjn2
      rw [hcongr]
      exact hWF.adj_out j k2 nd hjn2
  · intro j k2 nd hjn
    have hjn2 : (g.nodes ++ [(k, Hypernode.new)])[j]? = some (k2, nd) := hjn
    rw [getElem?_append_single] at hjn2
    have hcongr : edgesWithDest
        { g with nodes := g.nodes ++ [(k, Hypernode.new)] } j =
          edgesWithDest g j := edgesWithDest_congr rfl j
    by_cases hx : j = g.nodes.length
    · rw [if_pos hx] at hjn2
      have hpair := Option.some.inj hjn2
      have hnd : nd = Hypernode.new := (congrArg Prod.snd hpair).symm
      subst hnd
      have hnone : edgesWithDest g j = ∅ := by
        rw [Finset.eq_empty_iff_forall_not_mem]
        intro x hxm
        rw [mem_edgesWithDest] at hxm
        obtain ⟨e, he, hje⟩ := hxm
        have hmem : e ∈ g.edges := List.getElem?_mem he
        have := hWF.edge_dst_lt e hmem j hje
        unfold Hypergraph.order at this
        omega
      rw [hcongr, hnone]
      simp [Hypernode.new]
    · rw [if_neg hx] at hjn2
      rw [hcongr]
      exact hWF.adj_in j k2 nd hjn2

/-- The graph produced by a fresh-shape `insert_edge` — edge appended,
adjacency of the listed endpoints extended — is well-formed. -/
theorem adjUpd_wf (g : Hypergraph N E) (hWF : WF g) (ss ds : List N)
    (si di : List ℕ) (w : E)
    (hss : g.mapIdx? ss = some si) (hds : g.mapIdx? ds = some di) :
    WF ({ nodes := g.nodes.map (adjUpd ss ds g.edges.length),
          edges := g.edges ++ [⟨si.toFinset, di.toFinset, w⟩] } :
        Hypergraph N E) := by
  refine ⟨?_, ?_, ?_, ?_, ?_⟩
  · show ((g.nodes.map (adjUpd ss ds g.edges.length)).map Prod.fst).Nodup
    rw [List.map_map]
    have hcomp : (Prod.fst ∘ adjUpd ss ds g.edges.length) =
        (Prod.fst : N × Hypernode → N) := by
      funext p
      rfl
    rw [hcomp]
    exact hWF.keys_nodup
  · intro e he j hj
    show j < (g.nodes.map (adjUpd ss ds g.edges.length)).length
    rw [List.length_map]
    rcases List.mem_append.mp he with he1 | he2
    · have h1 := hWF.edge_src_lt e he1 j hj
      unfold Hypergraph.order at h1
      exact h1
    · have he0 : e = ⟨si.toFinset, di.toFinset, w⟩ := by simpa using he2
      rw [he0] at hj
      have hj2 : j ∈ si := List.mem_toFinset.mp hj
      obtain ⟨a, _ha, hfa⟩ := optMap_mem_of hss j hj2
      have h1 := nodeIndex_lt hfa
      unfold Hypergraph.order at h1
      exact h1
  · intro e he j hj
    show j < (g.nodes.map (adjUpd ss ds g.edges.length)).length
    rw [List.length_map]
    rcases List.mem_append.mp he with he1 | he2
    · have h1 := hWF.edge_dst_lt e he1 j hj
      unfold Hypergraph.order at h1
      exact h1
    · have he0 : e = ⟨si.toFinset, di.toFinset, w⟩ := by simpa using he2
      rw [he0] at hj
      have hj2 : j ∈ di := List.mem_toFinset.mp hj
      obtain ⟨a, _ha, hfa⟩ := optMap_mem_of hds j hj2
      have h1 := nodeIndex_lt hfa
      unfold Hypergraph.order at h1
      exact h1
  · intro j k nd hj
    have hj0 : (g.nodes.map (adjUpd ss ds g.edges.length))[j]? =
        some (k, nd) := hj
    rw [List.getElem?_map] at hj0
    cases hgj : g.nodes[j]? with
    | none =>
        rw [hgj] at hj0
        exact absurd hj0 (by simp)
    | some p =>
        rw [hgj] at hj0
        have hkv : adjUpd ss ds g.edges.length p = (k, nd) := by
          simpa using hj0
        have hnd2 : (adjUpd ss ds g.edges.length p).2 = nd :=
          congrArg Prod.snd hkv
        rw [← hnd2]
        have hGc : edgesWithSource
            ({ nodes := g.nodes.map (adjUpd ss ds g.edges.length),
               edges := g.edges ++ [⟨si.toFinset, di.toFinset, w⟩] } :
              Hypergraph N E) j =
            edgesWithSource
              { g with edges := g.edges ++ [⟨si.toFinset, di.toFinset, w⟩] } j :=
          edgesWithSource_congr rfl j
        rw [hGc, edgesWithSource_append]
        have hp : g.nodes[j]? = some (p.1, p.2) := by rw [hgj]
        have hiff := mem_iff_index_mem hWF.keys_nodup hss hp
        by_cases hmem : p.1 ∈ ss
        · have hjsi : j ∈ si := hiff.mp hmem
          have hjsrc : j ∈ (⟨si.toFinset, di.toFinset, w⟩ : Hyperedge E).src :=
            List.mem_toFinset.mpr hjsi
          rw [if_pos hjsrc]
          have hupd : (adjUpd ss ds g.edges.length p).2.neighbors =
              p.2.neighbors.insert g.edges.length := by
            simp only [adjUpd]
            rw [if_pos hmem]
          rw [hupd, toFinset_insert_eq, hWF.adj_out j p.1 p.2 hp]
        · have hjsi : j ∉ si := fun hc => hmem (hiff.mpr hc)
          have hjsrc : j ∉ (⟨si.toFinset, di.toFinset, w⟩ : Hyperedge E).src :=
            fun hc => hjsi (List.mem_toFinset.mp hc)
          rw [if_neg hjsrc]
          have hupd : (adjUpd ss ds g.edges.length p).2.neighbors =
              p.2.neighbors := by
            simp only [adjUpd]
            rw [if_neg hmem]
          rw [hupd]
          exact hWF.adj_out j p.1 p.2 hp
  · intro j k nd hj
    have hj0 : (g.nodes.map (adjUpd ss ds g.edges.length))[j]? =
        some (k, nd) := hj
    rw [List.getElem?_map] at hj0
    cases hgj : g.nodes[j]? with
    | none =>
        rw [hgj] at hj0
        exact absurd hj0 (by simp)
    | some p =>
        rw [hgj] at hj0
        have hkv : adjUpd ss ds g.edges.length p = (k, nd) := by
          simpa using hj0
        have hnd2 : (adjUpd ss ds g.edges.length p).2 = nd :=
          congrArg Prod.snd hkv
        rw [← hnd2]
        have hGc : edgesWithDest
            ({ nodes := g.nodes.map (adjUpd ss ds g.edges.length),
               edges := g.edges ++ [⟨si.toFinset, di.toFinset, w⟩] } :
              Hypergraph N E) j =
            edgesWithDest
              { g with edges := g.edges ++ [⟨si.toFinset, di.toFinset, w⟩] } j :=
          edgesWithDest_congr rfl j
        rw [hGc, edgesWithDest_append]
        have hp : g.nodes[j]? = some (p.1, p.2) := by rw [hgj]
        have hiff := mem_iff_index_mem hWF.keys_nodup hds hp
        by_cases hmem : p.1 ∈ ds
        · have hjdi : j ∈ di := hiff.mp hmem
          have hjdst : j ∈ (⟨si.toFinset, di.toFinset, w⟩ : Hyperedge E).dst :=
            List.mem_toFinset.mpr hjdi
          rw [if_pos hjdst]
          have hupd : (adjUpd ss ds g.edges.length p).2.neighbor_of =
              p.2.neighbor_of.insert g.edges.length := by
            simp only [adjUpd]
            rw [if_pos hmem]
          rw [hupd, toFinset_insert_eq, hWF.adj_in j p.1 p.2 hp]
        · have hjdi : j ∉ di := fun hc => hmem (hiff.mpr hc)
          have hjdst : j ∉ (⟨si.toFinset, di.toFinset, w⟩ : Hyperedge E).dst :=
            fun hc => hjdi (List.mem_toFinset.mp hc)
          rw [if_neg hjdst]
          have hupd : (adjUpd ss ds g.edges.length p).2.neighbor_of =
              p.2.neighbor_of := by
            simp only [adjUpd]
            rw [if_neg hmem]
          rw [hupd]
          exact hWF.adj_in j p.1 p.2 hp

/-- A successful `insert_edge` preserves well-formedness. -/
theorem WF_insert_edge (g : Hypergraph N E) (hWF : WF g)
    (ss ds : List N) (w : E) (g2 : Hypergraph N E) (i : ℕ)
    (h : g.insert_edge ss ds w = RustRes.ok (g2, i)) : WF g2 := by
  cases hss : g.mapIdx? ss with
  | none =>
      unfold Hypergraph.insert_edge at h
      simp only [hss] at h
      exact RustRes.noConfusion h
  | some si =>
      cases hds : g.mapIdx? ds with
      | none =>
          unfold Hypergraph.insert_edge at h
          simp only [hss, hds] at h
          exact RustRes.noConfusion h
      | some di =>
          cases hfind : g.edges.findIdx?
              (fun e => decide (e.src = si.toFinset ∧ e.dst = di.toFinset)) with
          | some i0 =>
              have hdup :=
                insert_edge_dup_noop g hWF ss ds w si di i0 hss hds hfind
              rw [hdup] at h
              have hpq : (g, i0) = (g2, i) := RustRes.ok.inj h
              have hg : g = g2 := congrArg Prod.fst hpq
              exact hg ▸ hWF
          | none =>
              have hfe := insert_edge_fresh_eq g ss ds w si di hss hds hfind
              rw [hfe] at h
              have hpq := RustRes.ok.inj h
              have hg : g2 = ds.foldl (fun h k => h.addIn k g.edges.length)
                  (ss.foldl (fun h k => h.addOut k g.edges.length)
                    { g with edges :=
                        g.edges ++ [⟨si.toFinset, di.toFinset, w⟩] }) :=
                (congrArg Prod.fst hpq).symm
              have hnodes : g2.nodes =
                  g.nodes.map (adjUpd ss ds g.edges.length) := by
                rw [hg, foldl_addIn_nodes, foldl_addOut_nodes, List.map_map]
                refine List.map_congr_left ?_
                intro p _hp
                simp only [Function.comp_apply, adjUpd]
                by_cases h1 : p.1 ∈ ss
                · by_cases h2 : p.1 ∈ ds
                  · simp only [if_pos h1, if_pos h2]
                  · simp only [if_pos h1, if_neg h2]
                · by_cases h2 : p.1 ∈ ds
                  · simp only [if_neg h1, if_pos h2]
                  · simp only [if_neg h1, if_neg h2]
              have hedges : g2.edges =
                  g.edges ++ [⟨si.toFinset, di.toFinset, w⟩] := by
                rw [hg, foldl_addIn_edges, foldl_addOut_edges]
              have hGeq : g2 =
                  ({ nodes := g.nodes.map (adjUpd ss ds g.edges.length),
                     edges := g.edges ++ [⟨si.toFinset, di.toFinset, w⟩] } :
                    Hypergraph N E) :=
                Hypergraph.eq_of hnodes hedges
              rw [hGeq]
              exact adjUpd_wf g hWF ss ds si di w hss hds

/-- Every intermediate graph of a fresh build sequence is well-formed. -/
theorem buildFreshFrom_WF :
    ∀ (ops : List (Op N E)) (g g2 : Hypergraph N E), WF g →
      buildFreshFrom g ops = some g2 → WF g2 := by
  intro ops
  induction ops with
  | nil =>
      intro g g2 hWF h
      simp only [buildFreshFrom] at h
      rw [← Option.some.inj h]
      exact hWF
  | cons op ops ih =>
      intro g g2 hWF h
      simp only [buildFreshFrom] at h
      cases hap : applyOpFresh g op with
      | none =>
          rw [hap] at h
          exact absurd h (by simp)
      | some g1 =>
          rw [hap] at h
          refine ih g1 g2 ?_ h
          cases op with
          | node k =>
              simp only [applyOpFresh] at hap
              cases hidx : g.nodeIndex k with
              | some j =>
                  rw [hidx] at hap
                  exact absurd hap (by simp)
              | none =>
                  rw [hidx] at hap
                  simp only [Option.some.injEq] at hap
                  rw [← hap]
                  exact WF_insert_node_fresh g hWF k hidx
          | edge ss ds w =>
              simp only [applyOpFresh] at hap
              cases hie : g.insert_edge ss ds w with
              | ok p =>
                  rw [hie] at hap
                  simp only [Option.some.injEq] at hap
                  rw [← hap]
                  exact WF_insert_edge g hWF ss ds w p.1 p.2 hie
              | err e =>
                  rw [hie] at hap
                  exact absurd hap (by simp)
              | panic =>
                  rw [hie] at hap
                  exact absurd hap (by simp)

/-- A graph built fresh from the empty graph is well-formed. -/
theorem buildFresh_WF (ops : List (Op N E)) (g : Hypergraph N E)
    (h : buildFresh ops = some g) : WF g :=
  buildFreshFrom_WF ops Hypergraph.new g WF_new h

/-- C8 (amended): for every graph built by a sequence of `insert_node` and
`insert_edge` calls in which no `insert_node` call re-inserts an
already-present key, and every key `k` stored at node index `j`:
`neighbors k` succeeds and returns exactly the edge indices whose stored
`sources` set contains `j`, and `neighbor_of k` succeeds and returns
exactly those whose stored `destinations` set contains `j`.  The claim as
stated — over arbitrary build sequences — is refuted by `C8_cex`, where a
re-inserted key's adjacency has been reset while its edges remain. -/
theorem C8_neighbors_exact (ops : List (Op N E)) (g : Hypergraph N E)
    (hbuild : buildFresh ops = some g) (j : ℕ) (k : N) (nd : Hypernode)
    (hj : g.nodes[j]? = some (k, nd)) :
    g.neighbors k = RustRes.ok nd.neighbors ∧
    g.neighbor_of k = RustRes.ok nd.neighbor_of ∧
    nd.neighbors.toFinset = edgesWithSource g j ∧
    nd.neighbor_of.toFinset = edgesWithDest g j := by
  have hWF := buildFresh_WF ops g hbuild
  have hget := getNode?_of_getElem hWF.keys_nodup hj
  refine ⟨?_, ?_, hWF.adj_out j k nd hj, hWF.adj_in j k nd hj⟩
  · unfold Hypergraph.neighbors
    rw [hget]
  · unfold Hypergraph.neighbor_of
    rw [hget]

/-- C8 refuted as stated: `gReset` is built by a plain sequence of
`insert_node` / `insert_edge` calls (the last call re-inserts `a`), key
`a` sits at node index 0, edge 0 still lists index 0 in its `sources`
set, yet `neighbors "a"` returns the empty list. -/
theorem C8_cex :
    build [Op.node "a", Op.node "b", Op.edge ["a"] ["b"] 5,
      Op.node "a"] = some gReset ∧
    gReset.nodeIndex "a" = some 0 ∧
    gReset.neighbors "a" = RustRes.ok [] ∧
    edgesWithSource gReset 0 = {0} := by
  decide

/-- Witness instantiating `C8_neighbors_exact` on the graph `gW` built
fresh by three calls, at key `a` (node index 0). -/
theorem C8_witness :
    buildFresh [Op.node "a", Op.node "b", Op.edge ["a"] ["b"] 5] = some gW ∧
    gW.nodes[0]? = some ("a", ⟨[0], []⟩) ∧
    (gW.neighbors "a" = RustRes.ok [0] ∧
     gW.neighbor_of "a" = RustRes.ok [] ∧
     ([0] : List ℕ).toFinset = edgesWithSource gW 0 ∧
     ([] : List ℕ).toFinset = edgesWithDest gW 0) :=
  ⟨by decide, by decide,
   C8_neighbors_exact [Op.node "a", Op.node "b", Op.edge ["a"] ["b"] 5] gW
     (by decide) 0 "a" ⟨[0], []⟩ (by decide)⟩

/-- C10 (amended): on every graph built by a sequence of `insert_node`
and `insert_edge` calls in which no `insert_node` call re-inserts an
already-present key, calling `insert_edge` with the (sources,
destinations) shape of an already-stored edge returns the stored edge's
index and leaves the entire graph state — edge arena, every node's
adjacency, and the key-to-index map — unchanged.  On graphs reachable by
arbitrary call sequences the claim is refuted by `C10_cex`: after a
destructive node re-insertion the duplicate call re-adds the stored index
to the re-inserted node's adjacency, changing the graph. -/
theorem C10_duplicate_edge_noop (ops : List (Op N E)) (g : Hypergraph N E)
    (hbuild : buildFresh ops = some g) (ss ds : List N) (w : E)
    (si di : List ℕ) (i : ℕ)
    (hss : g.mapIdx? ss = some si) (hds : g.mapIdx? ds = some di)
    (hfound : g.edges.findIdx?
      (fun e => decide (e.src = si.toFinset ∧ e.dst = di.toFinset)) =
        some i) :
    g.insert_edge ss ds w = RustRes.ok (g, i) :=
  insert_edge_dup_noop g (buildFresh_WF ops g hbuild) ss ds w si di i
    hss hds hfound

/-- C10 refuted as stated: on `gReset` (reachable by a plain sequence of
`insert_node` / `insert_edge` calls), a duplicate `insert_edge` call
returns the stored index 0 and discards the new payload, but re-adds
index 0 to the adjacency of `a`, so the resulting graph `gW` differs from
`gReset`. -/
theorem C10_cex :
    build [Op.node "a", Op.node "b", Op.edge ["a"] ["b"] 5,
      Op.node "a"] = some gReset ∧
    gReset.insert_edge ["a"] ["b"] 7 = RustRes.ok (gW, 0) ∧
    gW ≠ gReset := by
  decide

/-- Witness instantiating `C10_duplicate_edge_noop`: a duplicate
insertion on the freshly built `gW` is a complete no-op returning the
stored index 0. -/
theorem C10_witness :
    buildFresh [Op.node "a", Op.node "b", Op.edge ["a"] ["b"] 5] = some gW ∧
    gW.mapIdx? ["a"] = some [0] ∧
    gW.mapIdx? ["b"] = some [1] ∧
    gW.edges.findIdx?
      (fun e => decide (e.src = ([0] : List ℕ).toFinset ∧
        e.dst = ([1] : List ℕ).toFinset)) = some 0 ∧
    gW.insert_edge ["a"] ["b"] 9 = RustRes.ok (gW, 0) :=
  ⟨by decide, by decide, by decide, by decide,
   C10_duplicate_edge_noop [Op.node "a", Op.node "b", Op.edge ["a"] ["b"] 5]
     gW (by decide) ["a"] ["b"] 9 [0] [1] 0 (by decide) (by decide)
     (by decide)⟩

end SupplySolver
